import Mathlib

/-!
Verification of the configuration-resolution core of `cac-configmgr`
(chain resolver, resource merger, variable interpolator, consistency
validator).  The Python core operates on dynamically-typed JSON-like
data; we embed that data as the inductive type `Val` and transcribe the
core functions (`merger.py`, `resolver.py`, `interpolator.py`,
`validator.py`, `engine.py`) as executable Lean functions over `Val`.
`deepcopy` is the identity in this model since `Val` is pure data.
-/

namespace CacCfg

/-- Dynamic (JSON/YAML-like) value as handled by the Python core:
`None`, `bool`, `int`, `str`, `list`, `dict` (a dict is modelled as an
insertion-ordered association list with distinct keys, which is how
CPython dicts behave). -/
inductive Val where
  | null : Val
  | bool : Bool → Val
  | int : Int → Val
  | str : String → Val
  | list : List Val → Val
  | dict : List (String × Val) → Val

/-- A Python dict with string keys (insertion-ordered association list). -/
abbrev Obj := List (String × Val)

mutual

def decEqV : (a b : Val) → Decidable (a = b)
  | .null, .null => isTrue rfl
  | .bool a, .bool b =>
    if h : a = b then isTrue (by rw [h]) else isFalse (fun hh => h (Val.bool.inj hh))
  | .int a, .int b =>
    if h : a = b then isTrue (by rw [h]) else isFalse (fun hh => h (Val.int.inj hh))
  | .str a, .str b =>
    if h : a = b then isTrue (by rw [h]) else isFalse (fun hh => h (Val.str.inj hh))
  | .list a, .list b =>
    match decEqL a b with
    | isTrue h => isTrue (by rw [h])
    | isFalse h => isFalse (fun hh => h (Val.list.inj hh))
  | .dict a, .dict b =>
    match decEqO a b with
    | isTrue h => isTrue (by rw [h])
    | isFalse h => isFalse (fun hh => h (Val.dict.inj hh))
  | .null, .bool _ | .null, .int _ | .null, .str _ | .null, .list _ | .null, .dict _
  | .bool _, .null | .bool _, .int _ | .bool _, .str _ | .bool _, .list _ | .bool _, .dict _
  | .int _, .null | .int _, .bool _ | .int _, .str _ | .int _, .list _ | .int _, .dict _
  | .str _, .null | .str _, .bool _ | .str _, .int _ | .str _, .list _ | .str _, .dict _
  | .list _, .null | .list _, .bool _ | .list _, .int _ | .list _, .str _ | .list _, .dict _
  | .dict _, .null | .dict _, .bool _ | .dict _, .int _ | .dict _, .str _ | .dict _, .list _ =>
    isFalse (fun h => Val.noConfusion h)

def decEqL : (a b : List Val) → Decidable (a = b)
  | [], [] => isTrue rfl
  | [], _ :: _ => isFalse (fun h => List.noConfusion h)
  | _ :: _, [] => isFalse (fun h => List.noConfusion h)
  | a :: as, b :: bs =>
    match decEqV a b, decEqL as bs with
    | isTrue h1, isTrue h2 => isTrue (by rw [h1, h2])
    | isFalse h1, _ => isFalse (fun h => h1 (List.cons.inj h).1)
    | _, isFalse h2 => isFalse (fun h => h2 (List.cons.inj h).2)

def decEqO : (a b : List (String × Val)) → Decidable (a = b)
  | [], [] => isTrue rfl
  | [], _ :: _ => isFalse (fun h => List.noConfusion h)
  | _ :: _, [] => isFalse (fun h => List.noConfusion h)
  | (k1, v1) :: as, (k2, v2) :: bs =>
    match String.decEq k1 k2, decEqV v1 v2, decEqO as bs with
    | isTrue h0, isTrue h1, isTrue h2 => isTrue (by rw [h0, h1, h2])
    | isFalse h0, _, _ => isFalse (fun h => h0 (congrArg Prod.fst (List.cons.inj h).1))
    | _, isFalse h1, _ => isFalse (fun h => h1 (congrArg Prod.snd (List.cons.inj h).1))
    | _, _, isFalse h2 => isFalse (fun h => h2 (List.cons.inj h).2)

end

instance : DecidableEq Val := decEqV

/-- Python truthiness of a value (`if x:`). -/
def pyTruthy : Val → Bool
  | .null => false
  | .bool b => b
  | .int n => n != 0
  | .str s => s != ""
  | .list l => !l.isEmpty
  | .dict d => !d.isEmpty

/-- Truthiness of `d.get(k)` (missing key gives `None`, which is falsy). -/
def optTruthy : Option Val → Bool
  | none => false
  | some v => pyTruthy v

/-- `d.get(k)` on a Python dict. -/
def dictGet (d : Obj) (k : String) : Option Val :=
  match d.find? (fun kv => kv.1 == k) with
  | some kv => some kv.2
  | none => none

/-- `d[k] = v` on a Python dict: replace the existing binding in place,
or append a new binding at the end. -/
def dictSet (d : Obj) (k : String) (v : Val) : Obj :=
  match d with
  | [] => [(k, v)]
  | kv :: rest => if kv.1 = k then (k, v) :: rest else kv :: dictSet rest k v

/-- A dict keyed by arbitrary values, as `base_by_id` / `result_by_id` in
`merge_list_by_id` (keys are `_id` values) and the name index in
`merge_resources`. -/
abbrev VMap := List (Val × Obj)

/-- `m.get(k)` for a value-keyed dict. -/
def vmapGet (m : VMap) (k : Val) : Option Obj :=
  match m.find? (fun kv => kv.1 == k) with
  | some kv => some kv.2
  | none => none

/-- `m[k] = v` for a value-keyed dict (replace in place or append). -/
def vmapSet (m : VMap) (k : Val) (v : Obj) : VMap :=
  match m with
  | [] => [(k, v)]
  | kv :: rest => if kv.1 = k then (k, v) :: rest else kv :: vmapSet rest k v

/-- `m.pop(k, None)` for a value-keyed dict: drop the binding if present. -/
def vmapPop (m : VMap) (k : Val) : VMap :=
  match m with
  | [] => []
  | kv :: rest => if kv.1 = k then rest else kv :: vmapPop rest k

/-- The five ordering-directive kinds of `merge_list_by_id`:
`_after`, `_before`, `_position`, `_first`, `_last`. -/
inductive DirKind where
  | after : DirKind
  | before : DirKind
  | position : DirKind
  | first : DirKind
  | last : DirKind
deriving DecidableEq

/-- One collected ordering directive `(item_id, directive_type, value)`. -/
abbrev Directive := Val × DirKind × Val

/-- Priority of a directive, from `directive_priority` in
`apply_ordering_directives`: `_position` is 1, `_first`/`_last` are 2,
`_before`/`_after` are 3. -/
def directive_priority : DirKind → Nat
  | .position => 1
  | .first => 2
  | .last => 2
  | .before => 3
  | .after => 3

/-- Application of one ordering directive to the current id order: the
body of the `for item_id, directive_type, value in sorted_directives`
loop in `apply_ordering_directives`.  The `_position` value is an `int`
in every run that terminates normally (CPython raises `TypeError`
otherwise); likewise a `_after`/`_before` directive whose reference is
the moved element itself makes CPython raise `ValueError` after the
`remove` — both exceptional paths are modelled as leaving the list
unchanged and are exercised by no theorem below. -/
def applyDir (result : List Val) (dir : Directive) : List Val :=
  let (item_id, kind, value) := dir
  if item_id ∈ result then
    match kind with
    | .position =>
      match value with
      | .int n =>
        let r := result.erase item_id
        let pos := (min (max 1 n) (Int.ofNat r.length + 1) - 1).toNat
        r.insertIdx pos item_id
      | _ => result
    | .first => item_id :: result.erase item_id
    | .last => result.erase item_id ++ [item_id]
    | .after =>
      if value ∈ result then
        let r := result.erase item_id
        match r.indexOf? value with
        | some idx => r.insertIdx (idx + 1) item_id
        | none => r
      else result
    | .before =>
      if value ∈ result then
        let r := result.erase item_id
        match r.indexOf? value with
        | some idx => r.insertIdx idx item_id
        | none => r
      else result
  else result

/-- `apply_ordering_directives(item_ids, directives)`: stable-sort the
directives by priority (`_position` first, then `_first`/`_last`, then
`_before`/`_after`) and apply them sequentially to the id list. -/
def apply_ordering_directives (item_ids : List Val) (directives : List Directive) : List Val :=
  let sorted_directives :=
    directives.filter (fun d => directive_priority d.2.1 = 1)
      ++ directives.filter (fun d => directive_priority d.2.1 = 2)
      ++ directives.filter (fun d => directive_priority d.2.1 = 3)
  sorted_directives.foldl applyDir item_ids

/-- Directives contributed by one override element, in the collection
order of `merge_list_by_id`: `_after`, `_before`, `_position` (collected
when its value `is not None`), `_first`, `_last` (each of the others when
its value is truthy). -/
def collectDirs (item_id : Val) (d : Obj) : List Directive :=
  (if optTruthy (dictGet d "_after") then [(item_id, .after, (dictGet d "_after").getD .null)] else [])
  ++ (if optTruthy (dictGet d "_before") then [(item_id, .before, (dictGet d "_before").getD .null)] else [])
  ++ (match dictGet d "_position" with
      | some v => if v = .null then [] else [(item_id, .position, v)]
      | none => [])
  ++ (if optTruthy (dictGet d "_first") then [(item_id, .first, .bool true)] else [])
  ++ (if optTruthy (dictGet d "_last") then [(item_id, .last, .bool true)] else [])

/-- Split of the base list into `base_by_id` and `base_without_id` (the
first loop of `merge_list_by_id`): dict elements carrying an `_id` key
are indexed by its value, everything else keeps its relative order. -/
def splitItems : List Val → VMap → List Val → VMap × List Val
  | [], m, w => (m, w)
  | item :: rest, m, w =>
    match item with
    | .dict d =>
      match dictGet d "_id" with
      | some i => splitItems rest (vmapSet m i d) w
      | none => splitItems rest m (w ++ [.dict d])
    | v => splitItems rest m (w ++ [v])

mutual

/-- `deep_merge(base, override)`: fold the override's entries into a
copy of the base (`result = dict(base)` followed by the `for` loop). -/
def deep_merge (base : Obj) (ov : Obj) : Obj :=
  match ov with
  | [] => base
  | (k, v) :: rest => deep_merge (dmStep base k v) rest
termination_by sizeOf ov
decreasing_by all_goals (simp_wf <;> omega)

/-- One iteration of the `deep_merge` loop for entry `(key, override_val)`:
`None` never overrides; a new key is copied; list-vs-list uses
`merge_list_by_id`; dict-vs-dict recurses; anything else overrides. -/
def dmStep (result : Obj) (key : String) (override_val : Val) : Obj :=
  if override_val = .null then result
  else
    match dictGet result key with
    | none => dictSet result key override_val
    | some cur =>
      match override_val, cur with
      | .list ol, .list bl => dictSet result key (.list (merge_list_by_id bl ol))
      | .dict od, .dict bd => dictSet result key (.dict (deep_merge bd od))
      | _, _ => dictSet result key override_val
termination_by sizeOf override_val + 1
decreasing_by all_goals (simp_wf <;> omega)

/-- `merge_list_by_id(base_list, override_list)`: split the base, process
the overrides, apply the collected ordering directives to the id order,
rebuild the identified elements in that order, then append the
elements without `_id`. -/
def merge_list_by_id (base_list override_list : List Val) : List Val :=
  let s := splitItems base_list [] []
  let p := procOv override_list s.2 s.1 s.1 []
  let final_order := apply_ordering_directives (p.2.1.map (·.1)) p.2.2
  let identified := final_order.filterMap (fun i => (vmapGet p.2.1 i).map .dict)
  identified ++ p.1
termination_by sizeOf override_list + 1
decreasing_by all_goals (simp_wf <;> omega)

/-- The override loop of `merge_list_by_id`.  State: `w` is
`result_without_id`, `rby` is `result_by_id`, `bby` is the immutable
`base_by_id`, `dirs` the collected ordering directives.  Returns
`(result_without_id, result_by_id, directives)`. -/
def procOv (items : List Val) (w : List Val) (rby : VMap) (bby : VMap)
    (dirs : List Directive) : List Val × VMap × List Directive :=
  match items with
  | [] => (w, rby, dirs)
  | item :: rest =>
    match item with
    | .dict d =>
      let idOpt := dictGet d "_id"
      let action := dictGet d "_action"
      let dirs' := if optTruthy idOpt then dirs ++ collectDirs (idOpt.getD .null) d else dirs
      let i := idOpt.getD .null
      if optTruthy idOpt ∧ (vmapGet bby i).isSome then
        if action = some (.str "delete") then
          procOv rest w (vmapPop rby i) bby dirs'
        else
          procOv rest w (vmapSet rby i (deep_merge ((vmapGet bby i).getD []) d)) bby dirs'
      else
        if action = some (.str "delete") then
          procOv rest w rby bby dirs'
        else if optTruthy idOpt then
          procOv rest w (vmapSet rby i d) bby dirs'
        else
          procOv rest (w ++ [.dict d]) rby bby dirs'
    | v => procOv rest (w ++ [v]) rby bby dirs
termination_by sizeOf items
decreasing_by all_goals (simp_wf <;> omega)

end

/-- `_get_resource_name(resource)`: the value of `policy_name` if that
key is present, else the value of `name` if present, else nothing. -/
def get_resource_name (r : Obj) : Option Val :=
  match dictGet r "policy_name" with
  | some v => some v
  | none => dictGet r "name"

/-- Check for the explicit delete marker in `merge_resources`:
`resource.get("action") == "delete" or resource.get("_action") == "delete"`. -/
def isDeleteRes (r : Obj) : Bool :=
  dictGet r "action" == some (.str "delete") || dictGet r "_action" == some (.str "delete")

/-- Indexing of the base list in `merge_resources`: resources whose name
is truthy are indexed by it, the rest are dropped. -/
def mrIndexBase : List Obj → VMap → VMap
  | [], acc => acc
  | r :: rest, acc =>
    match get_resource_name r with
    | some v => if pyTruthy v then mrIndexBase rest (vmapSet acc v r) else mrIndexBase rest acc
    | none => mrIndexBase rest acc

/-- The override loop of `merge_resources`.  `none` models the
`MergeError` raised when a resource's name is `None` (both identity keys
absent, or the first present one bound to `None`). -/
def mrOv : List Obj → VMap → Option VMap
  | [], acc => some acc
  | r :: rest, acc =>
    match get_resource_name r with
    | none => none
    | some .null => none
    | some v =>
      if isDeleteRes r then mrOv rest (vmapPop acc v)
      else
        match vmapGet acc v with
        | some cur => mrOv rest (vmapSet acc v (deep_merge cur r))
        | none => mrOv rest (vmapSet acc v r)

/-- `merge_resources(base_list, override_list)`: index the base by name,
fold the overrides in, and return `list(result.values())`; `none` models
a raised `MergeError`. -/
def merge_resources (base_list override_list : List Obj) : Option (List Obj) :=
  (mrOv override_list (mrIndexBase base_list [])).map (fun acc => acc.map (·.2))

/-! ## Variable interpolator (`interpolator.py`) -/

mutual

/-- Python `str(value)` for the values the interpolator substitutes. -/
def pyStr : Val → String
  | .null => "None"
  | .bool b => if b then "True" else "False"
  | .int n => toString n
  | .str s => s
  | .list l => "[" ++ String.intercalate ", " (pyReprL l) ++ "]"
  | .dict d => "\x7b" ++ String.intercalate ", " (pyReprO d) ++ "\x7d"

/-- Python `repr(value)` (strings are single-quoted; quote escaping is
not modelled, no theorem below stringifies a string inside a container). -/
def pyRepr : Val → String
  | .null => "None"
  | .bool b => if b then "True" else "False"
  | .int n => toString n
  | .str s => "'" ++ s ++ "'"
  | .list l => "[" ++ String.intercalate ", " (pyReprL l) ++ "]"
  | .dict d => "\x7b" ++ String.intercalate ", " (pyReprO d) ++ "\x7d"

def pyReprL : List Val → List String
  | [] => []
  | v :: rest => pyRepr v :: pyReprL rest

def pyReprO : List (String × Val) → List String
  | [] => []
  | (k, v) :: rest => ("'" ++ k ++ "': " ++ pyRepr v) :: pyReprO rest

end

/-- Python `key.startswith("_")`: the key's first character is an
underscore. -/
def startsWithUnd (k : String) : Bool :=
  match k.data with
  | c :: _ => c = '_'
  | [] => false

/-- Opening brace character. -/
def lbrace : Char := Char.ofNat 123

/-- Closing brace character. -/
def rbrace : Char := Char.ofNat 125

/-- Python `\s` on ASCII input (space, tab, newline, CR, VT, FF). -/
def isPySpace (c : Char) : Bool :=
  c = ' ' || c = '\t' || c = '\n' || c = '\r' || c = '\x0b' || c = '\x0c'

/-- First character class of the variable pattern: `[a-zA-Z_]`. -/
def isIdentStart (c : Char) : Bool := c.isAlpha || c = '_'

/-- Continuation character class of the variable pattern: `[a-zA-Z0-9_]`. -/
def isIdentChar (c : Char) : Bool := c.isAlphanum || c = '_'

/-- Attempt to match `VARIABLE_PATTERN` (two open braces, optional
whitespace, an identifier, optional whitespace, two close braces) at the
head of a character list; on success return the captured name and the
remaining characters.  The pattern's character classes are pairwise
disjoint so regex matching is deterministic and this greedy scan is
exact. -/
def matchVar (l : List Char) : Option (String × List Char) :=
  match l with
  | c1 :: c2 :: rest =>
    if c1 = lbrace ∧ c2 = lbrace then
      match rest.dropWhile isPySpace with
      | c :: cs =>
        if isIdentStart c then
          let ident := c :: cs.takeWhile isIdentChar
          match (cs.dropWhile isIdentChar).dropWhile isPySpace with
          | d1 :: d2 :: rest2 =>
            if d1 = rbrace ∧ d2 = rbrace then some (String.mk ident, rest2) else none
          | _ => none
        else none
      | [] => none
    else none
  | _ => none

/-- The `VariableNotFoundError` raised by `_get_variable`: it records
the missing name and the currently known variable names (the
`Available variables:` list in the message). -/
structure VarNF where
  name : String
  available : List String
deriving DecidableEq

/-- The exception's message text, as built by the f-string in
`_get_variable`. -/
def VarNF.message (e : VarNF) : String :=
  "Variable '\x7b" ++ e.name ++ "\x7d' not found. Available variables: ["
    ++ String.intercalate ", " (e.available.map (fun s => "'" ++ s ++ "'")) ++ "]"

/-- `_get_variable(name)`: the value if the name is a key of the
variable map, else a `VariableNotFoundError` carrying the known names. -/
def get_variable (vars : Obj) (n : String) : Except VarNF Val :=
  match dictGet vars n with
  | some v => .ok v
  | none => .error ⟨n, vars.map (·.1)⟩

/-- The substitution pass of `_interpolate_string` (`re.sub` with
`replace_var`): scan left to right, replace every pattern match by the
stringified variable value, fail on an undefined name. -/
def subst (vars : Obj) (l : List Char) : Except VarNF (List Char) :=
  match l with
  | [] => .ok []
  | c :: cs =>
    match h : matchVar (c :: cs) with
    | some (n, r) =>
      match get_variable vars n with
      | .error e => .error e
      | .ok v => (subst vars r).map (fun tail => (pyStr v).data ++ tail)
    | none => (subst vars cs).map (fun tail => c :: tail)
termination_by l.length
decreasing_by
  · have dw : ∀ (p : Char → Bool) (l : List Char), (l.dropWhile p).length ≤ l.length := by
      intro p l
      induction l with
      | nil => simp
      | cons a t ih =>
        by_cases hp : p a
        · simp [List.dropWhile_cons, hp]; omega
        · simp [List.dropWhile_cons, hp]
    generalize hx : (c :: cs : List Char) = l0 at h ⊢
    unfold matchVar at h
    repeat split at h
    all_goals try exact Option.noConfusion h
    rename_i ll c1 c2 rest hbr x1 cc ccs heq1 hid x2 d1 d2 rest2 heq2 hbr2
    have e1 := congrArg List.length heq1
    have e2 := congrArg List.length heq2
    have f1 := dw isPySpace rest
    have f2 := dw isIdentChar ccs
    have f3 := dw isPySpace (ccs.dropWhile isIdentChar)
    simp only [Option.some.injEq, Prod.mk.injEq] at h
    simp only [List.length_cons] at e1 e2
    obtain ⟨hn, hr⟩ := h
    subst hr
    simp only [List.length_cons]
    omega
  · simp

/-- All variable names referenced in a string, in scan order — the
string case of `extract_variables` (`finditer` scans exactly like
`sub`). -/
def stringVarRefs (l : List Char) : List String :=
  match l with
  | [] => []
  | c :: cs =>
    match h : matchVar (c :: cs) with
    | some (n, r) => n :: stringVarRefs r
    | none => stringVarRefs cs
termination_by l.length
decreasing_by
  · have dw : ∀ (p : Char → Bool) (l : List Char), (l.dropWhile p).length ≤ l.length := by
      intro p l
      induction l with
      | nil => simp
      | cons a t ih =>
        by_cases hp : p a
        · simp [List.dropWhile_cons, hp]; omega
        · simp [List.dropWhile_cons, hp]
    generalize hx : (c :: cs : List Char) = l0 at h ⊢
    unfold matchVar at h
    repeat split at h
    all_goals try exact Option.noConfusion h
    rename_i ll c1 c2 rest hbr x1 cc ccs heq1 hid x2 d1 d2 rest2 heq2 hbr2
    have e1 := congrArg List.length heq1
    have e2 := congrArg List.length heq2
    have f1 := dw isPySpace rest
    have f2 := dw isIdentChar ccs
    have f3 := dw isPySpace (ccs.dropWhile isIdentChar)
    simp only [Option.some.injEq, Prod.mk.injEq] at h
    simp only [List.length_cons] at e1 e2
    obtain ⟨hn, hr⟩ := h
    subst hr
    simp only [List.length_cons]
    omega
  · simp

/-- `_interpolate_string`: if the whole string is one placeholder the
variable's value is returned with its native type, otherwise every
placeholder is substituted stringified and the result stays a string. -/
def interpolate_string (vars : Obj) (s : String) : Except VarNF Val :=
  match matchVar s.data with
  | some (n, []) => get_variable vars n
  | _ => (subst vars s.data).map (fun cs => .str (String.mk cs))

mutual

/-- `Interpolator.interpolate`: recursive walk over a value. -/
def interpolate (vars : Obj) (v : Val) : Except VarNF Val :=
  match v with
  | .dict d => (interpolateDict vars d).map .dict
  | .list l => (interpolateList vars l).map .list
  | .str s => interpolate_string vars s
  | v => .ok v
termination_by structural v

/-- `_interpolate_list`: interpolate every element. -/
def interpolateList (vars : Obj) (l : List Val) : Except VarNF (List Val) :=
  match l with
  | [] => .ok []
  | v :: rest =>
    match interpolate vars v with
    | .error e => .error e
    | .ok v' => (interpolateList vars rest).map (v' :: ·)
termination_by structural l

/-- `_interpolate_dict`: values of keys starting with `_` are passed
through unchanged — except `_action`, which is interpolated like any
ordinary field. -/
def interpolateDict (vars : Obj) (d : Obj) : Except VarNF Obj :=
  match d with
  | [] => .ok []
  | (k, v) :: rest =>
    if startsWithUnd k ∧ k ≠ "_action" then
      (interpolateDict vars rest).map ((k, v) :: ·)
    else
      match interpolate vars v with
      | .error e => .error e
      | .ok v' => (interpolateDict vars rest).map ((k, v') :: ·)
termination_by structural d

end

/-! ## Chain resolver (`resolver.py`) and engine (`engine.py`) -/

/-- Template or instance as consumed by the resolver and engine:
`metadata.name` (the id used for cycle detection), `metadata.extends`
(mandatory on instances, optional on templates), `spec.vars`, and the
resource collections of `spec.get_all_resources()` (kind → list of
resource dicts, as after `model_dump`). -/
structure RTemplate where
  name : String
  extendsRef : Option String
  vars : Obj
  resources : List (String × List Obj)
deriving DecidableEq

/-- The error taxonomy raised out of `ResolutionEngine.resolve`:
`CircularDependencyError`, the `TemplateResolutionError` raised on
exceeding the maximum depth, `TemplateNotFoundError`, `MergeError`,
`VariableNotFoundError`. -/
inductive EngErr where
  | circular : EngErr
  | maxDepth : EngErr
  | notFound : EngErr
  | mergeFailed : EngErr
  | varNotFound : VarNF → EngErr
deriving DecidableEq

/-- `self._max_depth` of `TemplateResolver`. -/
def MAX_DEPTH : Nat := 10

/-- `_get_parent_ref`'s version stripping: `extends.split("@")[0]`, i.e.
the characters before the first `@` (the whole string when there is
none). -/
def stripVersion (ref : String) : String :=
  String.mk (ref.data.takeWhile (fun c => c ≠ '@'))

/-- The `while` loop of `TemplateResolver.resolve`.  `fuel` is the
remaining depth budget (`_max_depth - depth`); each iteration checks the
visited set first (so a revisit raises `CircularDependencyError` even on
the iteration where the depth budget runs out), then the depth, appends
the current template, and follows the stripped parent reference through
the loader.  The loader abstracts `_load_template` (the template store
is an external collaborator; the per-call cache is semantically
transparent because the loader is a pure function). -/
def resolveGo (loader : String → Option RTemplate) (fuel : Nat) (current : RTemplate)
    (seen : List String) (chain : List RTemplate) : Except EngErr (List RTemplate) :=
  if current.name ∈ seen then .error .circular
  else
    match fuel with
    | 0 => .error .maxDepth
    | f + 1 =>
      let chain' := chain ++ [current]
      match current.extendsRef with
      | none => .ok chain'
      | some ref =>
        match loader (stripVersion ref) with
        | none => .error .notFound
        | some t => resolveGo loader f t (current.name :: seen) chain'

/-- `TemplateResolver.resolve(instance)`: run the loop and reverse the
collected chain into root-to-leaf order. -/
def TemplateResolver.resolve (loader : String → Option RTemplate) (inst : RTemplate) :
    Except EngErr (List RTemplate) :=
  (resolveGo loader MAX_DEPTH inst [] []).map List.reverse

/-- One parent-following step (strip the version suffix, load). -/
def linkStep (loader : String → Option RTemplate) (t : RTemplate) : Option RTemplate :=
  match t.extendsRef with
  | none => none
  | some ref => loader (stripVersion ref)

/-- Consecutive elements are linked by a successful parent load. -/
def isChained (loader : String → Option RTemplate) : List RTemplate → Bool
  | [] => true
  | [_] => true
  | a :: b :: rest => linkStep loader a == some b && isChained loader (b :: rest)

/-- `ps` is a prefix of the ancestor walk from `inst`: it starts at
`inst` and each element loads to the next. -/
def isWalkB (loader : String → Option RTemplate) (inst : RTemplate)
    (ps : List RTemplate) : Bool :=
  ps.head? == some inst && isChained loader ps

/-- `ps` is the complete ancestor walk from `inst`: a walk prefix whose
last element is a root (no parent reference). -/
def isRootedWalkB (loader : String → Option RTemplate) (inst : RTemplate)
    (ps : List RTemplate) : Bool :=
  isWalkB loader inst ps &&
    match ps.getLast? with
    | some t => t.extendsRef.isNone
    | none => false

/-- `merge_variables(base, override)`: shallow dict update, override
wins. -/
def merge_variables (base ov : Obj) : Obj :=
  match ov with
  | [] => base
  | (k, v) :: rest => merge_variables (dictSet base k v) rest

/-- Accumulator loop of `collect_variables_from_chain`. -/
def collectVarsGo : List RTemplate → Obj → Obj
  | [], acc => acc
  | t :: rest, acc => collectVarsGo rest (merge_variables acc t.vars)

/-- `collect_variables_from_chain(chain)`: fold variable maps root to
leaf, later wins. -/
def collect_variables_from_chain (chain : List RTemplate) : Obj :=
  collectVarsGo chain []

/-- Lookup in a kind-indexed resource map. -/
def kmGet (m : List (String × List Obj)) (k : String) : Option (List Obj) :=
  match m.find? (fun kv => kv.1 == k) with
  | some kv => some kv.2
  | none => none

/-- In-place update / append for a kind-indexed resource map. -/
def kmSet (m : List (String × List Obj)) (k : String) (v : List Obj) :
    List (String × List Obj) :=
  match m with
  | [] => [(k, v)]
  | kv :: rest => if kv.1 = k then (k, v) :: rest else kv :: kmSet rest k v

/-- Inner loop of `_merge_chain_resources` over one template's resource
collections: empty lists are skipped, a new kind is installed as-is, an
existing kind goes through `merge_resources`. -/
def mergeKinds : List (String × List Obj) → List (String × List Obj) →
    Option (List (String × List Obj))
  | merged, [] => some merged
  | merged, (kind, rl) :: rest =>
    if rl.isEmpty then mergeKinds merged rest
    else
      match kmGet merged kind with
      | none => mergeKinds (kmSet merged kind rl) rest
      | some cur =>
        match merge_resources cur rl with
        | none => none
        | some m2 => mergeKinds (kmSet merged kind m2) rest

/-- `_merge_chain_resources(chain)`: fold every template's contributions
root to leaf; `none` models a propagated `MergeError`. -/
def merge_chain_resources : List RTemplate → List (String × List Obj) →
    Option (List (String × List Obj))
  | [], merged => some merged
  | t :: rest, merged =>
    match mergeKinds merged t.resources with
    | none => none
    | some m2 => merge_chain_resources rest m2

/-- Interpolation of one resource list (each resource dict in order). -/
def interpResList (vars : Obj) : List Obj → Except VarNF (List Obj)
  | [] => .ok []
  | r :: rest =>
    match interpolateDict vars r with
    | .error e => .error e
    | .ok r' => (interpResList vars rest).map (r' :: ·)

/-- The interpolation step of `ResolutionEngine.resolve`: every resource
kind's merged list is interpolated. -/
def interpKinds (vars : Obj) : List (String × List Obj) →
    Except VarNF (List (String × List Obj))
  | [] => .ok []
  | (k, rl) :: rest =>
    match interpResList vars rl with
    | .error e => .error e
    | .ok rl' => (interpKinds vars rest).map ((k, rl') :: ·)

/-- `ResolvedConfiguration`: resources by kind, merged variables
(attribute `variables` in the source, renamed here because that word is
a reserved token), source chain. -/
structure ResolvedConfiguration where
  resources : List (String × List Obj)
  varsMap : Obj
  source_chain : List RTemplate
deriving DecidableEq

/-- `ResolutionEngine.resolve(instance)`: chain resolution, variable
collection, resource merging, interpolation; every error propagates
unmodified and aborts the later phases. -/
def ResolutionEngine.resolve (loader : String → Option RTemplate) (inst : RTemplate) :
    Except EngErr ResolvedConfiguration :=
  match TemplateResolver.resolve loader inst with
  | .error e => .error e
  | .ok chain =>
    let vars0 := collect_variables_from_chain chain
    match merge_chain_resources chain [] with
    | none => .error .mergeFailed
    | some merged =>
      match interpKinds vars0 merged with
      | .error e => .error (.varNotFound e)
      | .ok interpolated => .ok ⟨interpolated, vars0, chain⟩

/-! ## Consistency validator (`validator.py`) -/

/-- One entry of the violation list built by `ConsistencyValidator`. -/
structure ValidationError where
  resource_type : String
  resource_name : Val
  field : String
  reference : Val
  message : String
deriving DecidableEq

/-- `_get_resource_names(resource_type, name_field)`: the names used for
existence lookups — `r.get(name_field, r.get("name"))` for every
resource for which `r.get(name_field) or r.get("name")` is truthy.
(The Python value is a set; only membership is ever used, so a list with
possible duplicates is an exact model.) -/
def resourceNames (resources : List (String × List Obj)) (rtype name_field : String) :
    List Val :=
  ((kmGet resources rtype).getD []).filterMap (fun r =>
    if optTruthy (dictGet r name_field) || optTruthy (dictGet r "name") then
      some (match dictGet r name_field with
            | some v => v
            | none => (dictGet r "name").getD .null)
    else none)

/-- Violations contributed by one routing policy
(`_validate_routing_policies` loop body): a truthy `catch_all` absent
from the repo names, and every criterion whose truthy `repo` is absent.
A `routing_criteria` value that is present but not a list, or a
criterion that is not a dict, makes CPython raise; these paths are
modelled as contributing nothing and are exercised by no theorem. -/
def routingPolicyErrs (repo_names : List Val) (rp : Obj) : List ValidationError :=
  let rp_name := (dictGet rp "policy_name").getD (.str "unknown")
  (match dictGet rp "catch_all" with
   | some ca =>
     if pyTruthy ca ∧ ca ∉ repo_names then
       [⟨"routing_policies", rp_name, "catch_all", ca,
         "catch_all references non-existent repo: " ++ pyStr ca⟩]
     else []
   | none => [])
  ++ (match dictGet rp "routing_criteria" with
      | some (.list cl) =>
        cl.filterMap (fun crit =>
          match crit with
          | .dict c =>
            match dictGet c "repo" with
            | some repo =>
              if pyTruthy repo ∧ repo ∉ repo_names then
                some ⟨"routing_policies", rp_name, "routing_criteria.repo", repo,
                      "criterion references non-existent repo: " ++ pyStr repo⟩
              else none
            | none => none
          | _ => none)
      | _ => [])

/-- Violations contributed by one processing policy
(`_validate_processing_policies` loop body). -/
def processingPolicyErrs (routing_policy_names : List Val) (pp : Obj) :
    List ValidationError :=
  let pp_name := (dictGet pp "name").getD (.str "unknown")
  match dictGet pp "routingPolicy" with
  | some rpref =>
    if pyTruthy rpref ∧ rpref ∉ routing_policy_names then
      [⟨"processing_policies", pp_name, "routingPolicy", rpref,
        "references non-existent routing policy: " ++ pyStr rpref⟩]
    else []
  | none => []

/-- `ConsistencyValidator.validate()`: build the name indexes, then
collect every routing-policy violation followed by every
processing-policy violation; always returns the full list, never
raises. -/
def ConsistencyValidator.validate (resources : List (String × List Obj)) :
    List ValidationError :=
  let repo_names := resourceNames resources "repos" "name"
  let routing_policy_names := resourceNames resources "routing_policies" "policy_name"
  (((kmGet resources "routing_policies").getD []).map (routingPolicyErrs repo_names)).flatten
    ++ (((kmGet resources "processing_policies").getD []).map
        (processingPolicyErrs routing_policy_names)).flatten

/-! ## Statement helpers -/

/-- A scalar in the sense of `deep_merge`: neither a list nor a dict. -/
def isScalar : Val → Bool
  | .list _ => false
  | .dict _ => false
  | _ => true

/-- The string is a non-empty identifier as captured by
`VARIABLE_PATTERN`: `[a-zA-Z_][a-zA-Z0-9_]*`. -/
def isIdentB (n : String) : Bool :=
  match n.data with
  | [] => false
  | c :: cs => isIdentStart c && cs.all isIdentChar

/-- The placeholder token for a variable name: two open braces, the
name, two close braces. -/
def varTok (n : String) : String :=
  String.mk (lbrace :: lbrace :: (n.data ++ [rbrace, rbrace]))

/-- Decidable equality for `Except`, used to evaluate interpolation
results on concrete inputs. -/
instance {ε α : Type} [DecidableEq ε] [DecidableEq α] : DecidableEq (Except ε α) := fun a b =>
  match a, b with
  | .ok x, .ok y =>
    if h : x = y then isTrue (by rw [h]) else isFalse (fun hh => h (by injection hh))
  | .error e, .error f =>
    if h : e = f then isTrue (by rw [h]) else isFalse (fun hh => h (by injection hh))
  | .ok _, .error _ => isFalse (fun hh => Except.noConfusion hh)
  | .error _, .ok _ => isFalse (fun hh => Except.noConfusion hh)

/-- Fixture for the resolver: a parent chain `i -> a1 -> ... -> a10`
whose last template points back to `a1`, so the ancestor walk revisits
`a1` as its 12th node. -/
def cycTemplates : List RTemplate :=
  [⟨"a1", some "a2", [], []⟩, ⟨"a2", some "a3", [], []⟩, ⟨"a3", some "a4", [], []⟩,
   ⟨"a4", some "a5", [], []⟩, ⟨"a5", some "a6", [], []⟩, ⟨"a6", some "a7", [], []⟩,
   ⟨"a7", some "a8", [], []⟩, ⟨"a8", some "a9", [], []⟩, ⟨"a9", some "a10", [], []⟩,
   ⟨"a10", some "a1", [], []⟩]

/-- Loader over the cyclic fixture, keyed by template name. -/
def cycLoader : String → Option RTemplate := fun r =>
  cycTemplates.find? (fun t => t.name == r)

/-- Leaf instance of the cyclic fixture. -/
def cycInst : RTemplate := ⟨"i", some "a1", [], []⟩

/-- The first twelve nodes of the ancestor walk from `cycInst`: the
12th node revisits `a1`. -/
def cycWalk : List RTemplate :=
  cycInst :: cycTemplates ++ [⟨"a1", some "a2", [], []⟩]

/-- Fixture: a two-template cycle (`i` extends `p`, `p` extends `i`). -/
def twoCycLoader : String → Option RTemplate := fun r =>
  if r = "p" then some ⟨"p", some "i", [], []⟩
  else if r = "i" then some ⟨"i", some "p", [], []⟩
  else none

/-- Leaf instance of the two-template cycle. -/
def twoCycInst : RTemplate := ⟨"i", some "p", [], []⟩

/-- First three nodes of the two-template cycle's walk (the third node
revisits `i`). -/
def twoCycWalk : List RTemplate :=
  [⟨"i", some "p", [], []⟩, ⟨"p", some "i", [], []⟩, ⟨"i", some "p", [], []⟩]

/-- Fixture: a well-formed two-level hierarchy (leaf extends root). -/
def okLoader : String → Option RTemplate := fun r =>
  if r = "root" then some ⟨"root", none, [("v", .int 1)], []⟩ else none

/-- Root template of the well-formed fixture. -/
def rootT : RTemplate := ⟨"root", none, [("v", .int 1)], []⟩

/-- Leaf instance of the well-formed fixture. -/
def leafT : RTemplate := ⟨"leaf", some "root", [], []⟩

/-- No later element of the list carries the given `_id` value. -/
def idNotInB (i : Option Val) : List Val → Bool
  | [] => true
  | e :: rest =>
    match e with
    | .dict d => !(dictGet d "_id" == i) && idNotInB i rest
    | _ => idNotInB i rest

mutual

/-- Structural cleanliness of an override value, the hypothesis of the
amended idempotence claim: dicts have pairwise-distinct keys and clean
values; every list element is a dict carrying a truthy `_id`, ids are
pairwise distinct within the list, and no element carries an `_action`
key or any ordering-directive key. -/
def cleanVal : Val → Bool
  | .null => true
  | .bool _ => true
  | .int _ => true
  | .str _ => true
  | .list l => cleanElems l
  | .dict d => cleanObj d

/-- Cleanliness of a dict: distinct keys, clean values. -/
def cleanObj : Obj → Bool
  | [] => true
  | (k, v) :: rest => (dictGet rest k == none) && cleanVal v && cleanObj rest

/-- Cleanliness of a list's elements. -/
def cleanElems : List Val → Bool
  | [] => true
  | e :: rest =>
    match e with
    | .dict d =>
      optTruthy (dictGet d "_id")
        && isScalar ((dictGet d "_id").getD .null)
        && (dictGet d "_action" == none)
        && (dictGet d "_after" == none) && (dictGet d "_before" == none)
        && (dictGet d "_position" == none) && (dictGet d "_first" == none)
        && (dictGet d "_last" == none)
        && cleanObj d
        && idNotInB (dictGet d "_id") rest
        && cleanElems rest
    | _ => false

end

/-- The `base_by_id` index a clean list produces: each element keyed by
its `_id` value, in order. -/
def pairsOf : List Val → VMap
  | [] => []
  | e :: rest =>
    match e with
    | .dict d => ((dictGet d "_id").getD .null, d) :: pairsOf rest
    | _ => pairsOf rest

/-- The element carries no `_id` key (or is not a dict), i.e. it belongs
to `base_without_id`. -/
def notIdElem : Val → Bool
  | .dict d => (dictGet d "_id").isNone
  | _ => true

/-- The keys of a value-keyed dict are pairwise distinct. -/
def vmapNodup (m : VMap) : Prop := (m.map Prod.fst).Nodup

/-- Every entry of the id index maps an id to an element whose `_id`
field is that id. -/
def vmapIdConsistent (m : VMap) : Prop :=
  ∀ p ∈ m, dictGet p.2 "_id" = some p.1

/-- No later resource of the list has the given name. -/
def nameNotInB (n : Option Val) : List Obj → Bool
  | [] => true
  | r :: rest => !(get_resource_name r == n) && nameNotInB n rest

/-- Pairwise-distinct resource names. -/
def namesNodupB : List Obj → Bool
  | [] => true
  | r :: rest => nameNotInB (get_resource_name r) rest && namesNodupB rest

/-- A structurally clean override resource: it has a truthy name and
clean field values.  (A delete marker with a truthy name and clean
values is also clean.) -/
def cleanResource (r : Obj) : Bool :=
  (match get_resource_name r with
   | some v => pyTruthy v && isScalar v
   | none => false)
  && cleanObj r

/-- A structurally clean override list: every resource is clean and
resource names are pairwise distinct. -/
def cleanOverride (ol : List Obj) : Bool :=
  ol.all cleanResource && namesNodupB ol

/-! ## Lemmas about the dict model -/

theorem dictGet_cons (kv : String × Val) (d : Obj) (k : String) :
    dictGet (kv :: d) k = if kv.1 = k then some kv.2 else dictGet d k := by
  by_cases h : kv.1 = k <;> simp [dictGet, List.find?_cons, h]

theorem dictGet_dictSet_self (d : Obj) (k : String) (v : Val) :
    dictGet (dictSet d k v) k = some v := by
  induction d with
  | nil => simp [dictSet, dictGet, List.find?]
  | cons kv rest ih =>
    by_cases h : kv.1 = k
    · simp [dictSet, h, dictGet_cons]
    · simp [dictSet, h, dictGet_cons, ih]

theorem dictGet_dictSet_ne (d : Obj) (k k' : String) (v : Val) (h : k' ≠ k) :
    dictGet (dictSet d k v) k' = dictGet d k' := by
  induction d with
  | nil =>
    have hb : (k == k') = false := beq_eq_false_iff_ne.mpr (Ne.symm h)
    simp [dictSet, dictGet, List.find?, hb]
  | cons kv rest ih =>
    by_cases hk : kv.1 = k
    · subst hk
      simp [dictSet, dictGet_cons, Ne.symm h]
    · simp [dictSet, hk, dictGet_cons, ih]

theorem dictGet_none_iff (d : Obj) (k : String) :
    dictGet d k = none ↔ k ∉ d.map Prod.fst := by
  induction d with
  | nil => simp [dictGet, List.find?]
  | cons kv rest ih =>
    rw [dictGet_cons]
    by_cases h : kv.1 = k
    · subst h; simp
    · have h' : ¬ k = kv.1 := fun he => h he.symm
      simp [h, ih, List.map_cons, List.mem_cons, h']

theorem dmStep_get_ne (b : Obj) (k0 : String) (v0 : Val) (k : String) (h : k0 ≠ k) :
    dictGet (dmStep b k0 v0) k = dictGet b k := by
  simp only [dmStep]
  repeat' split
  all_goals first
    | rfl
    | exact dictGet_dictSet_ne _ _ _ _ (Ne.symm h)

theorem dmStep_get_self_scalar (b : Obj) (k : String) (v : Val)
    (hv : v ≠ .null) (hsc : isScalar v = true) :
    dictGet (dmStep b k v) k = some v := by
  simp only [dmStep, hv, if_false]
  split
  · exact dictGet_dictSet_self _ _ _
  · split
    · simp_all [isScalar]
    · simp_all [isScalar]
    · exact dictGet_dictSet_self _ _ _

theorem dm_get_frame (o : Obj) : ∀ (b : Obj) (k : String), dictGet o k = none →
    dictGet (deep_merge b o) k = dictGet b k := by
  induction o with
  | nil => intro b k _; simp [deep_merge]
  | cons kv rest ih =>
    intro b k h
    obtain ⟨k0, v0⟩ := kv
    rw [dictGet_cons] at h
    by_cases hk : k0 = k
    · simp [hk] at h
    · simp only [hk, if_false] at h
      simp only [deep_merge]
      rw [ih _ _ h, dmStep_get_ne _ _ _ _ hk]

theorem dm_get_scalar (o : Obj) : ∀ (b : Obj) (k : String) (v : Val),
    (o.map Prod.fst).Nodup → dictGet o k = some v → v ≠ .null → isScalar v = true →
    dictGet (deep_merge b o) k = some v := by
  induction o with
  | nil => intro b k v _ h _ _; simp [dictGet, List.find?] at h
  | cons kv rest ih =>
    intro b k v hnd h hv hsc
    obtain ⟨k0, v0⟩ := kv
    rw [dictGet_cons] at h
    simp only [List.map_cons, List.nodup_cons] at hnd
    by_cases hk : k0 = k
    · simp only [hk, if_true] at h
      obtain rfl : v0 = v := by injection h
      subst hk
      have hrest : dictGet rest k0 = none := (dictGet_none_iff _ _).mpr hnd.1
      simp only [deep_merge]
      rw [dm_get_frame _ _ _ hrest, dmStep_get_self_scalar _ _ _ hv hsc]
    · simp only [hk, if_false] at h
      simp only [deep_merge]
      exact ih _ _ _ hnd.2 h hv hsc

theorem dm_get_null (o : Obj) : ∀ (b : Obj) (k : String),
    (o.map Prod.fst).Nodup → dictGet o k = some .null →
    dictGet (deep_merge b o) k = dictGet b k := by
  induction o with
  | nil => intro b k _ h; simp [dictGet, List.find?] at h
  | cons kv rest ih =>
    intro b k hnd h
    obtain ⟨k0, v0⟩ := kv
    rw [dictGet_cons] at h
    simp only [List.map_cons, List.nodup_cons] at hnd
    by_cases hk : k0 = k
    · simp only [hk, if_true] at h
      obtain rfl : v0 = .null := by injection h
      subst hk
      have hrest : dictGet rest k0 = none := (dictGet_none_iff _ _).mpr hnd.1
      simp only [deep_merge]
      rw [dm_get_frame _ _ _ hrest]
      simp [dmStep]
    · simp only [hk, if_false] at h
      simp only [deep_merge]
      rw [ih _ _ hnd.2 h, dmStep_get_ne _ _ _ _ hk]


/-! ## C1: directive precedence (code bug) -/

/-- C1: the spec, the docstring of `apply_ordering_directives` and the
repo's own test `test_position_priority` all say an absolute-position
directive beats a pin-first directive on the same element.  The code
sorts directives by priority but then applies them sequentially, so the
later-applied (lower-priority) `_first` wins: on ids `[a, b, c]` with
both `_first` and `_position 3` on `b`, the result is `[b, a, c]` — `b`
is not at index 2 as the test asserts. -/
theorem C1_directive_conflict_trace :
    apply_ordering_directives [.str "a", .str "b", .str "c"]
        [(.str "b", .first, .bool true), (.str "b", .position, .int 3)]
      = [.str "b", .str "a", .str "c"]
    ∧ [Val.str "b", .str "a", .str "c"].get? 2 ≠ some (.str "b") := by
  constructor
  · simp [apply_ordering_directives, applyDir, directive_priority, List.filter]
  · decide

/-! ## C6: deep-merge field semantics -/

/-- C6: in `deep_merge`, for a key present in both dicts a scalar
(non-list, non-dict, non-null) override value replaces the base value; a
null override value never overrides; keys absent from the override keep
their base values; and the spec's example
`merge([{name:"r", retention:365}], [{name:"r", retention:90}])`
returns `[{name:"r", retention:90}]`. -/
theorem C6_deep_merge_field_semantics :
    (∀ (b o : Obj) (k : String) (v : Val),
        (o.map Prod.fst).Nodup → (dictGet b k).isSome → dictGet o k = some v →
        v ≠ .null → isScalar v = true →
        dictGet (deep_merge b o) k = some v)
    ∧ (∀ (b o : Obj) (k : String),
        (o.map Prod.fst).Nodup → dictGet o k = some .null →
        dictGet (deep_merge b o) k = dictGet b k)
    ∧ (∀ (b o : Obj) (k : String),
        dictGet o k = none →
        dictGet (deep_merge b o) k = dictGet b k)
    ∧ merge_resources [[("name", .str "r"), ("retention", .int 365)]]
        [[("name", .str "r"), ("retention", .int 90)]]
      = some [[("name", .str "r"), ("retention", .int 90)]] := by
  refine ⟨?_, ?_, ?_, ?_⟩
  · intro b o k v hnd _ h hv hsc
    exact dm_get_scalar o b k v hnd h hv hsc
  · intro b o k hnd h
    exact dm_get_null o b k hnd h
  · intro b o k h
    exact dm_get_frame o b k h
  · simp [merge_resources, mrOv, mrIndexBase, get_resource_name, isDeleteRes,
          deep_merge, dmStep, dictGet, dictSet, vmapGet, vmapSet, vmapPop,
          pyTruthy, optTruthy, List.find?]

/-- Witness for C6 at a concrete input. -/
theorem C6_witness :
    (([("retention", Val.int 90)] : Obj).map Prod.fst).Nodup
    ∧ (dictGet [("retention", Val.int 365)] "retention").isSome
    ∧ dictGet [("retention", Val.int 90)] "retention" = some (.int 90)
    ∧ dictGet (deep_merge [("retention", Val.int 365)] [("retention", Val.int 90)])
        "retention" = some (.int 90) := by
  refine ⟨by simp, by simp [dictGet, List.find?], by simp [dictGet, List.find?], ?_⟩
  exact C6_deep_merge_field_semantics.1 _ _ _ _ (by simp)
    (by simp [dictGet, List.find?]) (by simp [dictGet, List.find?])
    (by simp) (by simp [isScalar])

/-! ## C10: asymmetric identity-field requirement -/

theorem mrIndexBase_skip (r : Obj) (hr : get_resource_name r = none) :
    ∀ (bl1 bl2 : List Obj) (acc : VMap),
      mrIndexBase (bl1 ++ r :: bl2) acc = mrIndexBase (bl1 ++ bl2) acc := by
  intro bl1
  induction bl1 with
  | nil => intro bl2 acc; simp [mrIndexBase, hr]
  | cons r0 rest ih =>
    intro bl2 acc
    simp only [List.cons_append, mrIndexBase]
    repeat' split
    all_goals first | exact ih _ _ | rfl

theorem mrOv_err (r : Obj) (hr : get_resource_name r = none) :
    ∀ (ol1 : List Obj), ∀ (ol2 : List Obj) (acc : VMap),
      mrOv (ol1 ++ r :: ol2) acc = none := by
  intro ol1
  induction ol1 with
  | nil => intro ol2 acc; simp [mrOv, hr]
  | cons r0 rest ih =>
    intro ol2 acc
    simp only [List.cons_append, mrOv]
    repeat' split
    all_goals first | exact ih _ _ | rfl

/-- C10: the identity-field requirement of `merge_resources` is
asymmetric.  A base resource with neither `name` nor `policy_name` is
silently dropped — merging with it present gives exactly the same result
as merging without it, no error — while an override resource with
neither field makes the merge raise `MergeError` (modelled as `none`). -/
theorem C10_identity_asymmetry :
    (∀ (r : Obj) (bl1 bl2 ol : List Obj), get_resource_name r = none →
        merge_resources (bl1 ++ r :: bl2) ol = merge_resources (bl1 ++ bl2) ol)
    ∧ (∀ (bl ol1 ol2 : List Obj) (r : Obj), get_resource_name r = none →
        merge_resources bl (ol1 ++ r :: ol2) = none) := by
  constructor
  · intro r bl1 bl2 ol hr
    unfold merge_resources
    rw [mrIndexBase_skip r hr]
  · intro bl ol1 ol2 r hr
    unfold merge_resources
    rw [mrOv_err r hr]
    rfl

/-- Witness for C10 at a concrete input. -/
theorem C10_witness :
    get_resource_name [("retention", Val.int 5)] = none
    ∧ merge_resources [[("retention", Val.int 5)]] [] = merge_resources [] []
    ∧ merge_resources [] [[("retention", Val.int 5)]] = none := by
  refine ⟨by simp [get_resource_name, dictGet, List.find?], ?_, ?_⟩
  · exact C10_identity_asymmetry.1 _ [] [] []
      (by simp [get_resource_name, dictGet, List.find?])
  · exact C10_identity_asymmetry.2 [] [] [] _
      (by simp [get_resource_name, dictGet, List.find?])


/-! ## C9: consistency validator collects every dangling reference -/

/-- C9: `ConsistencyValidator.validate` is a total function returning a
list (never raising).  Every routing policy whose truthy `catch_all`
names a repo absent from the merged set contributes an entry with
populated kind/name/field/reference, and so does every criterion whose
truthy `repo` target is absent — for every policy in the list, not just
the first violation.  On a concrete input with one dangling catch-all
and one dangling criterion the result is exactly those two entries. -/
theorem C9_validator_collects_all :
    (∀ (resources : List (String × List Obj)) (rp : Obj) (ca : Val),
        rp ∈ (kmGet resources "routing_policies").getD [] →
        dictGet rp "catch_all" = some ca →
        pyTruthy ca = true →
        ca ∉ resourceNames resources "repos" "name" →
        (⟨"routing_policies", (dictGet rp "policy_name").getD (.str "unknown"),
          "catch_all", ca, "catch_all references non-existent repo: " ++ pyStr ca⟩ :
          ValidationError) ∈ ConsistencyValidator.validate resources)
    ∧ (∀ (resources : List (String × List Obj)) (rp : Obj) (cl : List Val)
          (c : Obj) (repo : Val),
        rp ∈ (kmGet resources "routing_policies").getD [] →
        dictGet rp "routing_criteria" = some (.list cl) →
        (.dict c) ∈ cl →
        dictGet c "repo" = some repo →
        pyTruthy repo = true →
        repo ∉ resourceNames resources "repos" "name" →
        (⟨"routing_policies", (dictGet rp "policy_name").getD (.str "unknown"),
          "routing_criteria.repo", repo,
          "criterion references non-existent repo: " ++ pyStr repo⟩ :
          ValidationError) ∈ ConsistencyValidator.validate resources)
    ∧ ConsistencyValidator.validate
        [("repos", [[("name", .str "repo-a")]]),
         ("routing_policies",
          [[("policy_name", .str "rp1"),
            ("catch_all", .str "missing"),
            ("routing_criteria",
             .list [.dict [("repo", .str "repo-a")], .dict [("repo", .str "gone")]])]])]
      = [⟨"routing_policies", .str "rp1", "catch_all", .str "missing",
          "catch_all references non-existent repo: missing"⟩,
         ⟨"routing_policies", .str "rp1", "routing_criteria.repo", .str "gone",
          "criterion references non-existent repo: gone"⟩] := by
  refine ⟨?_, ?_, ?_⟩
  · intro resources rp ca hrp hca htr hnm
    simp only [ConsistencyValidator.validate]
    apply List.mem_append_left
    apply List.mem_flatten.mpr
    refine ⟨routingPolicyErrs (resourceNames resources "repos" "name") rp,
            List.mem_map_of_mem _ hrp, ?_⟩
    unfold routingPolicyErrs
    apply List.mem_append_left
    rw [hca]
    simp [htr, hnm]
  · intro resources rp cl c repo hrp hcl hc hrepo htr hnm
    simp only [ConsistencyValidator.validate]
    apply List.mem_append_left
    apply List.mem_flatten.mpr
    refine ⟨routingPolicyErrs (resourceNames resources "repos" "name") rp,
            List.mem_map_of_mem _ hrp, ?_⟩
    unfold routingPolicyErrs
    apply List.mem_append_right
    rw [hcl]
    apply List.mem_filterMap.mpr
    refine ⟨.dict c, hc, ?_⟩
    simp [hrepo, htr, hnm]
  · decide

/-- Witness for C9 at a concrete input. -/
theorem C9_witness :
    ([("policy_name", Val.str "rp1"), ("catch_all", Val.str "gone")] : Obj)
        ∈ (kmGet [("routing_policies", [[("policy_name", Val.str "rp1"),
            ("catch_all", Val.str "gone")]])] "routing_policies").getD []
    ∧ (⟨"routing_policies", .str "rp1", "catch_all", .str "gone",
        "catch_all references non-existent repo: gone"⟩ : ValidationError)
        ∈ ConsistencyValidator.validate
            [("routing_policies", [[("policy_name", Val.str "rp1"),
              ("catch_all", Val.str "gone")]])] := by
  constructor
  · decide
  · exact C9_validator_collects_all.1
      [("routing_policies", [[("policy_name", Val.str "rp1"),
        ("catch_all", Val.str "gone")]])]
      [("policy_name", Val.str "rp1"), ("catch_all", Val.str "gone")]
      (.str "gone") (by decide) (by decide) (by decide) (by decide)


/-! ## Interpolator lemmas -/

theorem dropWhile_len_le {α : Type} (p : α → Bool) (l : List α) :
    (l.dropWhile p).length ≤ l.length := by
  induction l with
  | nil => simp
  | cons a t ih =>
    by_cases hp : p a
    · simp [List.dropWhile_cons, hp]; omega
    · simp [List.dropWhile_cons, hp]

theorem matchVar_rest_lt {l : List Char} {n : String} {r : List Char}
    (h : matchVar l = some (n, r)) : r.length < l.length := by
  unfold matchVar at h
  repeat split at h
  all_goals try exact Option.noConfusion h
  rename_i ll c1 c2 rest hbr x1 cc ccs heq1 hid x2 d1 d2 rest2 heq2 hbr2
  have e1 := congrArg List.length heq1
  have e2 := congrArg List.length heq2
  have f1 := dropWhile_len_le isPySpace rest
  have f2 := dropWhile_len_le isIdentChar ccs
  have f3 := dropWhile_len_le isPySpace (ccs.dropWhile isIdentChar)
  simp only [Option.some.injEq, Prod.mk.injEq] at h
  simp only [List.length_cons] at e1 e2
  obtain ⟨hn, hr⟩ := h
  subst hr
  simp only [List.length_cons]
  omega

theorem get_variable_error {vars : Obj} {n : String} {e : VarNF}
    (h : get_variable vars n = .error e) : e = ⟨n, vars.map Prod.fst⟩ := by
  unfold get_variable at h
  split at h
  · exact Except.noConfusion h
  · injection h with h; exact h.symm

/-! ## C3: marker fields and interpolation (corrected) -/

/-- C3 counterexample: the delete-marker field `_action` is **not**
interpolation-exempt — `_interpolate_dict` excludes exactly the keys
starting with `_` other than `_action`, so an `_action` value holding a
placeholder is rewritten. -/
theorem C3_counterexample :
    interpolate [("v", .str "delete")] (.dict [("_action", .str (varTok "v"))])
      = .ok (.dict [("_action", .str "delete")])
    ∧ Val.str "delete" ≠ .str (varTok "v") := by
  constructor
  · decide
  · decide

/-- C3 (amended): interpolation of a dict keeps every key in place and
passes the value of every key that starts with the internal marker `_`
through byte-for-byte unchanged — except the delete-marker field
`_action`, which is interpolated like an ordinary field.  (The statement
quantifies over every dict, hence it applies at every nesting level of a
resource tree.) -/
theorem C3_marker_fields_pass_through : ∀ (vars : Obj) (d d' : Obj),
    interpolateDict vars d = .ok d' →
    List.Forall₂ (fun (a b : String × Val) =>
      a.1 = b.1 ∧ ((startsWithUnd a.1 ∧ a.1 ≠ "_action") → b.2 = a.2)) d d' := by
  intro vars d
  induction d with
  | nil =>
    intro d' h
    simp only [interpolateDict] at h
    injection h with h
    subst h
    exact List.Forall₂.nil
  | cons kv rest ih =>
    intro d' h
    obtain ⟨k, v⟩ := kv
    simp only [interpolateDict] at h
    by_cases hm : startsWithUnd k ∧ k ≠ "_action"
    · rw [if_pos hm] at h
      cases hr : interpolateDict vars rest with
      | error e => rw [hr] at h; exact Except.noConfusion h
      | ok rest' =>
        rw [hr] at h
        injection h with h
        subst h
        exact List.Forall₂.cons ⟨rfl, fun _ => rfl⟩ (ih rest' hr)
    · rw [if_neg hm] at h
      cases hv : interpolate vars v with
      | error e => rw [hv] at h; exact Except.noConfusion h
      | ok v' =>
        rw [hv] at h
        cases hr : interpolateDict vars rest with
        | error e => rw [hr] at h; exact Except.noConfusion h
        | ok rest' =>
          rw [hr] at h
          injection h with h
          subst h
          exact List.Forall₂.cons ⟨rfl, fun hc => absurd hc hm⟩ (ih rest' hr)

/-- Witness for the amended C3 at a concrete input. -/
theorem C3_witness :
    interpolateDict [] [("_id", Val.str "x")] = .ok [("_id", Val.str "x")]
    ∧ List.Forall₂ (fun (a b : String × Val) =>
        a.1 = b.1 ∧ ((startsWithUnd a.1 ∧ a.1 ≠ "_action") → b.2 = a.2))
        [("_id", Val.str "x")] [("_id", Val.str "x")] := by
  have h : interpolateDict [] [("_id", Val.str "x")] = .ok [("_id", Val.str "x")] := by
    decide
  exact ⟨h, C3_marker_fields_pass_through [] _ _ h⟩


/-! ## Interpolation-scan helper lemmas -/

theorem get_variable_ok_iff {vars : Obj} {n : String} {v : Val} :
    get_variable vars n = .ok v ↔ dictGet vars n = some v := by
  unfold get_variable
  cases h : dictGet vars n <;> simp

theorem stringVarRefs_nil : stringVarRefs [] = [] := by
  simp [stringVarRefs]

theorem stringVarRefs_matchVar_some {l : List Char} {n : String} {r : List Char}
    (hm : matchVar l = some (n, r)) :
    stringVarRefs l = n :: stringVarRefs r := by
  match l with
  | [] => rw [show matchVar [] = none from rfl] at hm; exact Option.noConfusion hm
  | c :: cs => rw [stringVarRefs, hm]

theorem stringVarRefs_matchVar_none {c : Char} {cs : List Char}
    (hm : matchVar (c :: cs) = none) :
    stringVarRefs (c :: cs) = stringVarRefs cs := by
  rw [stringVarRefs, hm]

theorem subst_cons_matchVar_some {vars : Obj} {c : Char} {cs : List Char} {n : String}
    {r : List Char} (hm : matchVar (c :: cs) = some (n, r)) :
    subst vars (c :: cs) =
      match get_variable vars n with
      | .error e => .error e
      | .ok v => (subst vars r).map (fun tail => (pyStr v).data ++ tail) := by
  rw [subst, hm]

theorem subst_cons_matchVar_none {vars : Obj} {c : Char} {cs : List Char}
    (hm : matchVar (c :: cs) = none) :
    subst vars (c :: cs) = (subst vars cs).map (fun tail => c :: tail) := by
  rw [subst, hm]

theorem interp_str_full {vars : Obj} {s : String} {n0 : String}
    (hm : matchVar s.data = some (n0, [])) :
    interpolate_string vars s = get_variable vars n0 := by
  unfold interpolate_string
  rw [hm]

theorem interp_str_subst_none {vars : Obj} {s : String}
    (hm : matchVar s.data = none) :
    interpolate_string vars s = (subst vars s.data).map (fun cs => .str (String.mk cs)) := by
  unfold interpolate_string
  rw [hm]

theorem interp_str_subst_cons {vars : Obj} {s : String} {n0 : String} {c : Char}
    {r : List Char} (hm : matchVar s.data = some (n0, c :: r)) :
    interpolate_string vars s = (subst vars s.data).map (fun cs => .str (String.mk cs)) := by
  unfold interpolate_string
  rw [hm]

theorem identStart_not_space {c : Char} (h : isIdentStart c = true) :
    isPySpace c = false := by
  simp only [isIdentStart, Bool.or_eq_true] at h
  rcases h with h | h
  · simp only [isPySpace, Bool.or_eq_false_iff]
    refine ⟨⟨⟨⟨⟨?_, ?_⟩, ?_⟩, ?_⟩, ?_⟩, ?_⟩ <;>
      · simp only [decide_eq_false_iff_not]
        rintro rfl
        exact absurd h (by decide)
  · simp only [decide_eq_true_eq] at h
    subst h
    decide

theorem takeWhile_ident_append {cs : List Char} (h : ∀ x ∈ cs, isIdentChar x = true) :
    ∀ (l : List Char), (cs ++ rbrace :: l).takeWhile isIdentChar = cs
      ∧ (cs ++ rbrace :: l).dropWhile isIdentChar = rbrace :: l := by
  induction cs with
  | nil =>
    intro l
    constructor <;>
      simp [List.takeWhile_cons, List.dropWhile_cons,
            show isIdentChar rbrace = false from by decide]
  | cons a t ih =>
    intro l
    have ha : isIdentChar a = true := h a (List.mem_cons_self _ _)
    have ih' := ih (fun x hx => h x (List.mem_cons_of_mem _ hx)) l
    simp [List.takeWhile_cons, List.dropWhile_cons, ha, ih'.1, ih'.2]

theorem string_mk_data (s : String) : String.mk s.data = s := by
  cases s
  rfl

theorem matchVar_varTok (n : String) (h : isIdentB n = true) :
    matchVar (varTok n).data = some (n, []) := by
  unfold isIdentB at h
  cases hd : n.data with
  | nil => rw [hd] at h; simp at h
  | cons c cs =>
    rw [hd] at h
    simp only [Bool.and_eq_true, List.all_eq_true] at h
    obtain ⟨hc, hcs⟩ := h
    have hdata : (varTok n).data = lbrace :: lbrace :: (c :: (cs ++ rbrace :: [rbrace])) := by
      simp [varTok, hd]
    have h1 : isPySpace c = false := identStart_not_space hc
    obtain ⟨htw1, htw2⟩ := takeWhile_ident_append (fun x hx => hcs x hx) [rbrace]
    have h2 : isPySpace rbrace = false := by decide
    have hmk : String.mk (c :: cs) = n := by rw [← hd]
    rw [hdata]
    unfold matchVar
    simp +decide [List.dropWhile_cons, h1, hc, htw1, htw2, h2]
    exact hmk

/-! ## C7: undefined variables -/

theorem subst_error_avail (vars : Obj) :
    ∀ (N : Nat) (l : List Char) (e : VarNF), l.length ≤ N → subst vars l = .error e →
      e.available = vars.map Prod.fst := by
  intro N
  induction N with
  | zero =>
    intro l e hl h
    obtain rfl : l = [] := List.length_eq_zero.mp (Nat.le_zero.mp hl)
    simp [subst] at h
  | succ N ih =>
    intro l e hl h
    match l with
    | [] => simp [subst] at h
    | c :: cs =>
      cases hm : matchVar (c :: cs) with
      | some nr =>
        obtain ⟨n, r⟩ := nr
        rw [subst_cons_matchVar_some hm] at h
        have hr : r.length ≤ N := by
          have hlt := matchVar_rest_lt hm
          simp only [List.length_cons] at hl hlt
          omega
        cases hg : get_variable vars n with
        | error e' =>
          rw [hg] at h
          injection h with h
          subst h
          exact congrArg VarNF.available (get_variable_error hg)
        | ok v =>
          rw [hg] at h
          cases hs : subst vars r with
          | error e'' =>
            rw [hs] at h
            injection h with h
            subst h
            exact ih r _ hr hs
          | ok cs' => rw [hs] at h; exact Except.noConfusion h
      | none =>
        rw [subst_cons_matchVar_none hm] at h
        cases hs : subst vars cs with
        | error e'' =>
          rw [hs] at h
          injection h with h
          subst h
          exact ih cs _ (by simp only [List.length_cons] at hl; omega) hs
        | ok cs' => rw [hs] at h; exact Except.noConfusion h

theorem subst_err_of_undefined (vars : Obj) :
    ∀ (N : Nat) (l : List Char), l.length ≤ N →
      (∃ n ∈ stringVarRefs l, dictGet vars n = none) →
      ∃ e, subst vars l = .error e := by
  intro N
  induction N with
  | zero =>
    intro l hl hex
    obtain rfl : l = [] := List.length_eq_zero.mp (Nat.le_zero.mp hl)
    rw [stringVarRefs_nil] at hex
    simp at hex
  | succ N ih =>
    intro l hl hex
    match l with
    | [] => rw [stringVarRefs_nil] at hex; simp at hex
    | c :: cs =>
      cases hm : matchVar (c :: cs) with
      | some nr =>
        obtain ⟨n0, r⟩ := nr
        rw [subst_cons_matchVar_some hm]
        rw [stringVarRefs_matchVar_some hm] at hex
        have hr : r.length ≤ N := by
          have hlt := matchVar_rest_lt hm
          simp only [List.length_cons] at hl hlt
          omega
        cases hg : get_variable vars n0 with
        | error e' => exact ⟨e', rfl⟩
        | ok v =>
          have hn0 : dictGet vars n0 = some v := get_variable_ok_iff.mp hg
          obtain ⟨n, hn, hnone⟩ := hex
          rcases List.mem_cons.mp hn with rfl | hn
          · rw [hn0] at hnone; exact Option.noConfusion hnone
          · obtain ⟨e, he⟩ := ih r hr ⟨n, hn, hnone⟩
            exact ⟨e, by rw [he]; rfl⟩
      | none =>
        rw [subst_cons_matchVar_none hm]
        rw [stringVarRefs_matchVar_none hm] at hex
        obtain ⟨e, he⟩ := ih cs (by simp only [List.length_cons] at hl; omega) hex
        exact ⟨e, by rw [he]; rfl⟩

theorem subst_ok_of_defined (vars : Obj) :
    ∀ (N : Nat) (l : List Char), l.length ≤ N →
      (∀ n ∈ stringVarRefs l, (dictGet vars n).isSome) →
      ∃ cs, subst vars l = .ok cs := by
  intro N
  induction N with
  | zero =>
    intro l hl _
    obtain rfl : l = [] := List.length_eq_zero.mp (Nat.le_zero.mp hl)
    exact ⟨[], by simp [subst]⟩
  | succ N ih =>
    intro l hl hall
    match l with
    | [] => exact ⟨[], by simp [subst]⟩
    | c :: cs =>
      cases hm : matchVar (c :: cs) with
      | some nr =>
        obtain ⟨n0, r⟩ := nr
        rw [subst_cons_matchVar_some hm]
        rw [stringVarRefs_matchVar_some hm] at hall
        have hr : r.length ≤ N := by
          have hlt := matchVar_rest_lt hm
          simp only [List.length_cons] at hl hlt
          omega
        have hn0 := hall n0 (List.mem_cons_self _ _)
        cases hg : get_variable vars n0 with
        | error e' =>
          unfold get_variable at hg
          cases hd : dictGet vars n0 with
          | none => rw [hd] at hn0; simp at hn0
          | some v => rw [hd] at hg; exact Except.noConfusion hg
        | ok v =>
          obtain ⟨cs', hcs⟩ := ih r hr (fun n hn => hall n (List.mem_cons_of_mem _ hn))
          exact ⟨(pyStr v).data ++ cs', by rw [hcs]; rfl⟩
      | none =>
        rw [subst_cons_matchVar_none hm]
        rw [stringVarRefs_matchVar_none hm] at hall
        obtain ⟨cs', hcs⟩ := ih cs (by simp only [List.length_cons] at hl; omega) hall
        exact ⟨c :: cs', by rw [hcs]; rfl⟩

/-- C7: interpolating any string that references an undefined variable
raises `VariableNotFound`, and the raised error enumerates exactly the
currently known variable names; a string all of whose referenced names
are defined never raises. -/
theorem C7_variable_not_found :
    (∀ (vars : Obj) (s : String) (n : String),
        n ∈ stringVarRefs s.data → dictGet vars n = none →
        ∃ e, interpolate_string vars s = .error e ∧ e.available = vars.map Prod.fst)
    ∧ (∀ (vars : Obj) (s : String),
        (∀ n ∈ stringVarRefs s.data, (dictGet vars n).isSome) →
        ∃ v, interpolate_string vars s = .ok v) := by
  constructor
  · intro vars s n hn hnone
    cases hm : matchVar s.data with
    | some nr =>
      obtain ⟨n0, r⟩ := nr
      cases r with
      | nil =>
        rw [interp_str_full hm]
        rw [stringVarRefs_matchVar_some hm, stringVarRefs_nil] at hn
        obtain rfl : n = n0 := by simpa using hn
        cases hg : get_variable vars n with
        | error e => exact ⟨e, rfl, congrArg VarNF.available (get_variable_error hg)⟩
        | ok v =>
          rw [get_variable_ok_iff.mp hg] at hnone
          exact Option.noConfusion hnone
      | cons c' r' =>
        rw [interp_str_subst_cons hm]
        obtain ⟨e, he⟩ := subst_err_of_undefined vars s.data.length s.data le_rfl
          ⟨n, hn, hnone⟩
        exact ⟨e, by rw [he]; rfl,
               subst_error_avail vars s.data.length s.data e le_rfl he⟩
    | none =>
      rw [interp_str_subst_none hm]
      obtain ⟨e, he⟩ := subst_err_of_undefined vars s.data.length s.data le_rfl
        ⟨n, hn, hnone⟩
      exact ⟨e, by rw [he]; rfl,
             subst_error_avail vars s.data.length s.data e le_rfl he⟩
  · intro vars s hall
    cases hm : matchVar s.data with
    | some nr =>
      obtain ⟨n0, r⟩ := nr
      cases r with
      | nil =>
        rw [interp_str_full hm]
        have hn0 := hall n0
          (by rw [stringVarRefs_matchVar_some hm]; exact List.mem_cons_self _ _)
        cases hd : dictGet vars n0 with
        | none => rw [hd] at hn0; simp at hn0
        | some v => exact ⟨v, get_variable_ok_iff.mpr hd⟩
      | cons c' r' =>
        rw [interp_str_subst_cons hm]
        obtain ⟨cs, hcs⟩ := subst_ok_of_defined vars s.data.length s.data le_rfl hall
        exact ⟨.str (String.mk cs), by rw [hcs]; rfl⟩
    | none =>
      rw [interp_str_subst_none hm]
      obtain ⟨cs, hcs⟩ := subst_ok_of_defined vars s.data.length s.data le_rfl hall
      exact ⟨.str (String.mk cs), by rw [hcs]; rfl⟩

/-- Witness for C7 at a concrete input. -/
theorem C7_witness :
    "x" ∈ stringVarRefs (varTok "x").data
    ∧ dictGet [("known", Val.int 1)] "x" = none
    ∧ (∃ e, interpolate_string [("known", Val.int 1)] (varTok "x") = .error e
        ∧ e.available = ["known"]) := by
  have hmv : matchVar (varTok "x").data = some ("x", []) := matchVar_varTok "x" (by decide)
  have hrefs : stringVarRefs (varTok "x").data = ["x"] := by
    rw [stringVarRefs_matchVar_some hmv, stringVarRefs_nil]
  refine ⟨by rw [hrefs]; exact List.mem_singleton.mpr rfl, by decide, ?_⟩
  exact C7_variable_not_found.1 [("known", Val.int 1)] (varTok "x") "x"
    (by rw [hrefs]; exact List.mem_singleton.mpr rfl) (by decide)


/-! ## C8: type-preserving interpolation -/

/-- C8: a string that is exactly one placeholder for a defined variable
interpolates to the variable's value in its native type (for any
variable name fitting the pattern); concretely `{{n}}` with `n = 42`
gives the integer `42`, while the mixed string `path={{n}}` gives the
string `"path=42"`. -/
theorem C8_type_preserving_interpolation :
    (∀ (vars : Obj) (n : String) (v : Val), isIdentB n = true →
        dictGet vars n = some v →
        interpolate vars (.str (varTok n)) = .ok v)
    ∧ interpolate [("n", .int 42)] (.str (varTok "n")) = .ok (.int 42)
    ∧ interpolate [("n", .int 42)] (.str ("path=" ++ varTok "n")) = .ok (.str "path=42") := by
  refine ⟨?_, ?_, ?_⟩
  · intro vars n v hid hv
    show interpolate_string vars (varTok n) = .ok v
    rw [interp_str_full (matchVar_varTok n hid)]
    exact get_variable_ok_iff.mpr hv
  · decide
  · have h1 : ("path=" ++ varTok "n")
        = String.mk ['p','a','t','h','=',lbrace,lbrace,'n',rbrace,rbrace] := by decide
    rw [h1]
    show interpolate_string [("n", .int 42)]
      (String.mk ['p','a','t','h','=',lbrace,lbrace,'n',rbrace,rbrace]) = _
    rw [interp_str_subst_none (by decide)]
    rw [show (String.mk ['p','a','t','h','=',lbrace,lbrace,'n',rbrace,rbrace]).data
        = ['p','a','t','h','=',lbrace,lbrace,'n',rbrace,rbrace] from rfl]
    rw [subst_cons_matchVar_none (by decide)]
    rw [subst_cons_matchVar_none (by decide)]
    rw [subst_cons_matchVar_none (by decide)]
    rw [subst_cons_matchVar_none (by decide)]
    rw [subst_cons_matchVar_none (by decide)]
    rw [subst_cons_matchVar_some
      (show matchVar [lbrace, lbrace, 'n', rbrace, rbrace] = some ("n", []) from by decide)]
    rw [show get_variable [("n", Val.int 42)] "n" = .ok (.int 42) from by decide]
    rw [show subst [("n", Val.int 42)] [] = .ok [] from by simp [subst]]
    decide

/-- Witness for C8 at a concrete input. -/
theorem C8_witness :
    isIdentB "n" = true
    ∧ dictGet [("n", Val.int 42)] "n" = some (.int 42)
    ∧ interpolate [("n", Val.int 42)] (.str (varTok "n")) = .ok (.int 42) :=
  ⟨by decide, by decide,
   C8_type_preserving_interpolation.1 _ "n" _ (by decide) (by decide)⟩


/-! ## C4 and C5: chain resolution -/

theorem linkStep_some {loader : String → Option RTemplate} {a b : RTemplate}
    (h : (linkStep loader a == some b) = true) :
    ∃ ref, a.extendsRef = some ref ∧ loader (stripVersion ref) = some b := by
  rw [beq_iff_eq] at h
  unfold linkStep at h
  cases hext : a.extendsRef with
  | none => rw [hext] at h; exact Option.noConfusion h
  | some ref => rw [hext] at h; exact ⟨ref, rfl, h⟩

theorem resolveGo_circular (loader : String → Option RTemplate) :
    ∀ (ps : List RTemplate) (fuel : Nat) (cur : RTemplate) (seen : List String)
      (chain : List RTemplate),
      ps.head? = some cur → isChained loader ps = true →
      ps.length ≤ fuel + 1 → seen.Nodup →
      ¬ (seen ++ ps.map RTemplate.name).Nodup →
      resolveGo loader fuel cur seen chain = .error .circular := by
  intro ps
  induction ps with
  | nil => intro fuel cur seen chain hh; exact absurd hh (by simp)
  | cons p rest ih =>
    intro fuel cur seen chain hh hch hlen hnd hdup
    have hcur : cur = p := by
      have hx : p = cur := by simpa using hh
      exact hx.symm
    subst hcur
    by_cases hmem : cur.name ∈ seen
    · unfold resolveGo
      rw [if_pos hmem]
    · cases rest with
      | nil =>
        exfalso
        apply hdup
        simp only [List.map_cons, List.map_nil]
        rw [List.nodup_append]
        refine ⟨hnd, List.nodup_singleton _, ?_⟩
        intro a ha hb
        simp at hb
        subst hb
        exact hmem ha
      | cons b rest2 =>
        have hfuel : ∃ f, fuel = f + 1 := by
          cases fuel with
          | zero => simp at hlen
          | succ f => exact ⟨f, rfl⟩
        obtain ⟨f, rfl⟩ := hfuel
        simp only [isChained, Bool.and_eq_true] at hch
        obtain ⟨hlink, hch2⟩ := hch
        obtain ⟨ref, hext, hload⟩ := linkStep_some hlink
        unfold resolveGo
        rw [if_neg hmem, hext]
        simp only [hload]
        refine ih f b (cur.name :: seen) (chain ++ [cur]) rfl hch2 ?_ ?_ ?_
        · simp only [List.length_cons] at hlen ⊢
          omega
        · exact List.nodup_cons.mpr ⟨hmem, hnd⟩
        · intro hcon
          apply hdup
          rw [List.map_cons]
          exact (List.perm_middle.nodup_iff).mpr hcon

theorem resolveGo_success (loader : String → Option RTemplate) :
    ∀ (ps : List RTemplate) (fuel : Nat) (cur : RTemplate) (seen : List String)
      (chain : List RTemplate),
      ps.head? = some cur → isChained loader ps = true →
      (ps.getLast?.map RTemplate.extendsRef = some none) →
      ps.length ≤ fuel →
      (∀ t ∈ ps, t.name ∉ seen) →
      (ps.map RTemplate.name).Nodup →
      resolveGo loader fuel cur seen chain = .ok (chain ++ ps) := by
  intro ps
  induction ps with
  | nil => intro fuel cur seen chain hh; exact absurd hh (by simp)
  | cons p rest ih =>
    intro fuel cur seen chain hh hch hlast hlen hseen hnd
    have hcur : cur = p := by
      have hx : p = cur := by simpa using hh
      exact hx.symm
    subst hcur
    have hmem : cur.name ∉ seen := hseen cur (List.mem_cons_self _ _)
    cases rest with
    | nil =>
      have hext : cur.extendsRef = none := by
        simp only [List.getLast?_singleton, Option.map_some] at hlast
        injection hlast
      have hfuel : ∃ f, fuel = f + 1 := by
        cases fuel with
        | zero => simp at hlen
        | succ f => exact ⟨f, rfl⟩
      obtain ⟨f, rfl⟩ := hfuel
      unfold resolveGo
      rw [if_neg hmem, hext]
    | cons b rest2 =>
      have hfuel : ∃ f, fuel = f + 1 := by
        cases fuel with
        | zero => simp at hlen
        | succ f => exact ⟨f, rfl⟩
      obtain ⟨f, rfl⟩ := hfuel
      simp only [isChained, Bool.and_eq_true] at hch
      obtain ⟨hlink, hch2⟩ := hch
      obtain ⟨ref, hext, hload⟩ := linkStep_some hlink
      rw [List.map_cons, List.nodup_cons] at hnd
      unfold resolveGo
      rw [if_neg hmem, hext]
      simp only [hload]
      have hres := ih f b (cur.name :: seen) (chain ++ [cur]) rfl hch2 ?_ ?_ ?_ ?_
      · rw [hres, List.append_assoc]
        rfl
      · rw [List.getLast?_cons_cons] at hlast
        exact hlast
      · simp only [List.length_cons] at hlen ⊢
        omega
      · intro t ht
        simp only [List.mem_cons, not_or]
        constructor
        · intro he
          exact hnd.1 (he ▸ List.mem_map_of_mem RTemplate.name ht)
        · exact hseen t (List.mem_cons_of_mem _ ht)
      · exact hnd.2

theorem resolveGo_ok_inv (loader : String → Option RTemplate) :
    ∀ (fuel : Nat) (cur : RTemplate) (seen : List String) (chain : List RTemplate)
      (out : List RTemplate),
      resolveGo loader fuel cur seen chain = .ok out →
      ∃ ext, out = chain ++ ext
        ∧ (ext.map RTemplate.name).Nodup
        ∧ (∀ nm ∈ ext.map RTemplate.name, nm ∉ seen)
        ∧ ext.length ≤ fuel := by
  intro fuel
  induction fuel with
  | zero =>
    intro cur seen chain out h
    unfold resolveGo at h
    split at h
    · exact Except.noConfusion h
    · exact Except.noConfusion h
  | succ f ih =>
    intro cur seen chain out h
    unfold resolveGo at h
    split at h
    · exact Except.noConfusion h
    · rename_i hmem
      cases hext : cur.extendsRef with
      | none =>
        rw [hext] at h
        simp only [Except.ok.injEq] at h
        refine ⟨[cur], h.symm, by simp, ?_, by simp⟩
        intro nm hnm
        simp at hnm
        subst hnm
        exact hmem
      | some ref =>
        rw [hext] at h
        cases hload : loader (stripVersion ref) with
        | none =>
          simp only [hload] at h
          exact Except.noConfusion h
        | some t =>
          simp only [hload] at h
          obtain ⟨ext, hout, hnd, hseen, hlen⟩ := ih t (cur.name :: seen) (chain ++ [cur]) out h
          refine ⟨cur :: ext, by rw [hout, List.append_assoc]; rfl, ?_, ?_, by
            simp only [List.length_cons]; omega⟩
          · simp only [List.map_cons, List.nodup_cons]
            refine ⟨?_, hnd⟩
            intro hc
            exact hseen cur.name hc (List.mem_cons_self _ _)
          · intro nm hnm
            simp only [List.map_cons, List.mem_cons] at hnm
            rcases hnm with rfl | hnm
            · exact hmem
            · intro hs
              exact hseen nm hnm (List.mem_cons_of_mem _ hs)

/-- C4 counterexample: an 11-link parent chain whose 12th walk node
revisits `a1`.  The walk revisits a template id, yet `resolve` raises
the max-depth `TemplateResolutionError`, not `CircularDependencyError`,
because the depth budget runs out before the revisit is reached. -/
theorem C4_counterexample :
    isWalkB cycLoader cycInst cycWalk = true
    ∧ ¬ (cycWalk.map RTemplate.name).Nodup
    ∧ TemplateResolver.resolve cycLoader cycInst = .error .maxDepth
    ∧ (Except.error .maxDepth : Except EngErr (List RTemplate)) ≠ .error .circular := by
  refine ⟨by decide, by decide, by decide, by decide⟩

/-- C4 (amended): if the ancestor walk revisits a template id within its
first `MAX_DEPTH + 1` nodes, both the resolver and the whole engine
resolve raise `CircularDependencyError`; the engine aborts before any
merge work, producing no configuration. -/
theorem C4_cycle_detected (loader : String → Option RTemplate) (inst : RTemplate)
    (ps : List RTemplate)
    (hw : isWalkB loader inst ps = true)
    (hlen : ps.length ≤ MAX_DEPTH + 1)
    (hdup : ¬ (ps.map RTemplate.name).Nodup) :
    TemplateResolver.resolve loader inst = .error .circular
    ∧ ResolutionEngine.resolve loader inst = .error .circular := by
  have hres : resolveGo loader MAX_DEPTH inst [] [] = .error .circular := by
    unfold isWalkB at hw
    simp only [Bool.and_eq_true, beq_iff_eq] at hw
    exact resolveGo_circular loader ps MAX_DEPTH inst [] [] hw.1 hw.2 hlen List.nodup_nil
      (by simpa using hdup)
  constructor
  · unfold TemplateResolver.resolve
    rw [hres]
    rfl
  · unfold ResolutionEngine.resolve TemplateResolver.resolve
    rw [hres]
    rfl

/-- Witness for the amended C4 at a concrete input. -/
theorem C4_witness :
    isWalkB twoCycLoader twoCycInst twoCycWalk = true
    ∧ twoCycWalk.length ≤ MAX_DEPTH + 1
    ∧ ¬ (twoCycWalk.map RTemplate.name).Nodup
    ∧ TemplateResolver.resolve twoCycLoader twoCycInst = .error .circular := by
  refine ⟨by decide, by decide, by decide, ?_⟩
  exact (C4_cycle_detected twoCycLoader twoCycInst twoCycWalk
    (by decide) (by decide) (by decide)).1

/-- C5: for every complete, duplicate-free ancestor walk of at most
`MAX_DEPTH` nodes, `resolve` succeeds and returns exactly the walk in
root-to-leaf order (length = ancestor hops + 1); and every successfully
returned chain has pairwise-distinct template ids and length at most the
configured maximum depth. -/
theorem C5_chain_shape :
    (∀ (loader : String → Option RTemplate) (inst : RTemplate) (ps : List RTemplate),
        isRootedWalkB loader inst ps = true →
        (ps.map RTemplate.name).Nodup →
        ps.length ≤ MAX_DEPTH →
        TemplateResolver.resolve loader inst = .ok ps.reverse)
    ∧ (∀ (loader : String → Option RTemplate) (inst : RTemplate)
          (chain : List RTemplate),
        TemplateResolver.resolve loader inst = .ok chain →
        (chain.map RTemplate.name).Nodup ∧ chain.length ≤ MAX_DEPTH) := by
  constructor
  · intro loader inst ps hw hnd hlen
    unfold isRootedWalkB at hw
    simp only [Bool.and_eq_true] at hw
    obtain ⟨hw1, hw2⟩ := hw
    unfold isWalkB at hw1
    simp only [Bool.and_eq_true, beq_iff_eq] at hw1
    have hlast : ps.getLast?.map RTemplate.extendsRef = some none := by
      cases hg : ps.getLast? with
      | none => rw [hg] at hw2; exact absurd hw2 (by simp)
      | some t =>
        rw [hg] at hw2
        simp only [Option.isNone_iff_eq_none] at hw2
        simp [hw2]
    have hres := resolveGo_success loader ps MAX_DEPTH inst [] [] hw1.1 hw1.2 hlast hlen
      (by intro t _; exact List.not_mem_nil _) hnd
    unfold TemplateResolver.resolve
    rw [hres]
    rfl
  · intro loader inst chain h
    unfold TemplateResolver.resolve at h
    cases hr : resolveGo loader MAX_DEPTH inst [] [] with
    | error e => rw [hr] at h; exact Except.noConfusion h
    | ok out =>
      rw [hr] at h
      simp only [Except.map, Except.ok.injEq] at h
      subst h
      obtain ⟨ext, hout, hnd, _, hlen⟩ := resolveGo_ok_inv loader MAX_DEPTH inst [] [] out hr
      simp only [List.nil_append] at hout
      subst hout
      constructor
      · rw [List.map_reverse]
        exact List.nodup_reverse.mpr hnd
      · simpa using hlen

/-- Witness for C5 at a concrete input. -/
theorem C5_witness :
    isRootedWalkB okLoader leafT [leafT, rootT] = true
    ∧ ([leafT, rootT].map RTemplate.name).Nodup
    ∧ [leafT, rootT].length ≤ MAX_DEPTH
    ∧ TemplateResolver.resolve okLoader leafT = .ok [rootT, leafT] := by
  refine ⟨by decide, by decide, by decide, ?_⟩
  exact C5_chain_shape.1 okLoader leafT [leafT, rootT] (by decide) (by decide) (by decide)


/-! ## C2: helper lemmas on the map model -/

theorem vmapGet_cons (kv : Val × Obj) (m : VMap) (k : Val) :
    vmapGet (kv :: m) k = if kv.1 = k then some kv.2 else vmapGet m k := by
  by_cases h : kv.1 = k <;> simp [vmapGet, List.find?_cons, h]

theorem vmapGet_vmapSet_self (m : VMap) (k : Val) (v : Obj) :
    vmapGet (vmapSet m k v) k = some v := by
  induction m with
  | nil => simp [vmapSet, vmapGet, List.find?]
  | cons kv rest ih =>
    by_cases h : kv.1 = k
    · simp [vmapSet, h, vmapGet_cons]
    · simp [vmapSet, h, vmapGet_cons, ih]

theorem vmapGet_vmapSet_ne (m : VMap) (k k' : Val) (v : Obj) (h : k' ≠ k) :
    vmapGet (vmapSet m k v) k' = vmapGet m k' := by
  induction m with
  | nil =>
    have hb : (k == k') = false := beq_eq_false_iff_ne.mpr (Ne.symm h)
    simp [vmapSet, vmapGet, List.find?, hb]
  | cons kv rest ih =>
    by_cases hk : kv.1 = k
    · subst hk
      simp [vmapSet, vmapGet_cons, Ne.symm h]
    · simp [vmapSet, hk, vmapGet_cons, ih]

theorem dictSet_same (d : Obj) (k : String) (v : Val) (h : dictGet d k = some v) :
    dictSet d k v = d := by
  induction d with
  | nil => simp [dictGet, List.find?] at h
  | cons kv rest ih =>
    obtain ⟨k1, v1⟩ := kv
    rw [dictGet_cons] at h
    by_cases hk : k1 = k
    · subst hk
      simp only [if_pos rfl] at h
      injection h with h
      subst h
      simp [dictSet]
    · simp only [hk, if_false] at h
      simp [dictSet, hk, ih h]

theorem vmapSet_same (m : VMap) (k : Val) (v : Obj) (h : vmapGet m k = some v) :
    vmapSet m k v = m := by
  induction m with
  | nil => simp [vmapGet, List.find?] at h
  | cons kv rest ih =>
    obtain ⟨k1, v1⟩ := kv
    rw [vmapGet_cons] at h
    by_cases hk : k1 = k
    · subst hk
      simp only [if_pos rfl] at h
      injection h with h
      subst h
      simp [vmapSet]
    · simp only [hk, if_false] at h
      simp [vmapSet, hk, ih h]

theorem vmapSet_append (m : VMap) (k : Val) (v : Obj) (h : vmapGet m k = none) :
    vmapSet m k v = m ++ [(k, v)] := by
  induction m with
  | nil => simp [vmapSet]
  | cons kv rest ih =>
    rw [vmapGet_cons] at h
    by_cases hk : kv.1 = k
    · simp [hk] at h
    · simp only [hk, if_false] at h
      simp [vmapSet, hk, ih h]

theorem vmapPop_absent (m : VMap) (k : Val) (h : vmapGet m k = none) :
    vmapPop m k = m := by
  induction m with
  | nil => simp [vmapPop]
  | cons kv rest ih =>
    rw [vmapGet_cons] at h
    by_cases hk : kv.1 = k
    · simp [hk] at h
    · simp only [hk, if_false] at h
      simp [vmapPop, hk, ih h]

theorem vmapGet_none_iff (m : VMap) (k : Val) :
    vmapGet m k = none ↔ k ∉ m.map Prod.fst := by
  induction m with
  | nil => simp [vmapGet, List.find?]
  | cons kv rest ih =>
    rw [vmapGet_cons]
    by_cases h : kv.1 = k
    · subst h; simp
    · have h' : ¬ k = kv.1 := fun he => h he.symm
      simp [h, ih, List.map_cons, List.mem_cons, h']

theorem vmapSet_keys_present (m : VMap) (k : Val) (v w : Obj) (h : vmapGet m k = some w) :
    (vmapSet m k v).map Prod.fst = m.map Prod.fst := by
  induction m with
  | nil => simp [vmapGet, List.find?] at h
  | cons kv rest ih =>
    obtain ⟨k1, v1⟩ := kv
    rw [vmapGet_cons] at h
    by_cases hk : k1 = k
    · subst hk
      simp [vmapSet]
    · simp only [hk, if_false] at h
      simp [vmapSet, hk, ih h]

theorem vmapNodup_vmapSet (m : VMap) (k : Val) (v : Obj) (h : vmapNodup m) :
    vmapNodup (vmapSet m k v) := by
  cases hm : vmapGet m k with
  | some w =>
    unfold vmapNodup
    rw [vmapSet_keys_present m k v w hm]
    exact h
  | none =>
    unfold vmapNodup
    rw [vmapSet_append m k v hm, List.map_append]
    rw [List.nodup_append]
    refine ⟨h, by simp, ?_⟩
    intro a ha hb
    simp at hb
    exact (vmapGet_none_iff m k).mp hm (hb ▸ ha)

theorem vmapIdConsistent_vmapSet (m : VMap) (k : Val) (v : Obj)
    (h : vmapIdConsistent m) (hv : dictGet v "_id" = some k) :
    vmapIdConsistent (vmapSet m k v) := by
  induction m with
  | nil =>
    intro p hp
    simp [vmapSet] at hp
    subst hp
    exact hv
  | cons kv rest ih =>
    have hh := h kv (List.mem_cons_self _ _)
    have ht : vmapIdConsistent rest := fun p hp => h p (List.mem_cons_of_mem _ hp)
    by_cases hk : kv.1 = k
    · intro p hp
      simp only [vmapSet, hk, if_true] at hp
      rcases List.mem_cons.mp hp with rfl | hp
      · exact hv
      · exact ht p hp
    · intro p hp
      simp only [vmapSet, hk, if_false] at hp
      rcases List.mem_cons.mp hp with rfl | hp
      · exact hh
      · exact ih ht p hp


theorem vmapGet_nil (k : Val) : vmapGet [] k = none := rfl

theorem vmapGet_append_none {m1 m2 : VMap} {k : Val}
    (h1 : vmapGet m1 k = none) (h2 : vmapGet m2 k = none) :
    vmapGet (m1 ++ m2) k = none := by
  induction m1 with
  | nil => simpa using h2
  | cons kv rest ih =>
    rw [vmapGet_cons] at h1
    by_cases hk : kv.1 = k
    · simp [hk] at h1
    · simp only [hk, if_false] at h1
      rw [List.cons_append, vmapGet_cons, if_neg hk]
      exact ih h1

theorem optTruthy_some {o : Option Val} (h : optTruthy o = true) :
    ∃ i, o = some i ∧ pyTruthy i = true := by
  cases o with
  | none => simp [optTruthy] at h
  | some i => exact ⟨i, rfl, h⟩

theorem cleanObj_cons {k : String} {v : Val} {rest : Obj} :
    cleanObj ((k, v) :: rest) = true ↔
      dictGet rest k = none ∧ cleanVal v = true ∧ cleanObj rest = true := by
  simp [cleanObj, Bool.and_eq_true, and_assoc]

theorem cleanObj_self_get {d : Obj} (h : cleanObj d = true) :
    ∀ kv ∈ d, dictGet d kv.1 = some kv.2 := by
  induction d with
  | nil => intro kv hkv; simp at hkv
  | cons kv0 rest ih =>
    obtain ⟨k0, v0⟩ := kv0
    rw [cleanObj_cons] at h
    intro kv hkv
    rcases List.mem_cons.mp hkv with rfl | hkv
    · rw [dictGet_cons]
      simp
    · rw [dictGet_cons]
      have hne : kv.1 ≠ k0 := by
        intro he
        have : kv.1 ∈ rest.map Prod.fst := List.mem_map_of_mem Prod.fst hkv
        rw [he] at this
        exact (dictGet_none_iff rest k0).mp h.1 this
      rw [if_neg (fun he => hne he.symm)]
      exact ih h.2.2 kv hkv

theorem cleanElems_cons {e : Val} {rest : List Val} (h : cleanElems (e :: rest) = true) :
    ∃ d i, e = Val.dict d ∧ dictGet d "_id" = some i ∧ pyTruthy i = true
      ∧ isScalar i = true
      ∧ dictGet d "_action" = none
      ∧ dictGet d "_after" = none ∧ dictGet d "_before" = none
      ∧ dictGet d "_position" = none ∧ dictGet d "_first" = none
      ∧ dictGet d "_last" = none
      ∧ cleanObj d = true ∧ idNotInB (dictGet d "_id") rest = true
      ∧ cleanElems rest = true := by
  cases e with
  | null => simp [cleanElems] at h
  | bool b => simp [cleanElems] at h
  | int n => simp [cleanElems] at h
  | str s2 => simp [cleanElems] at h
  | list l => simp [cleanElems] at h
  | dict d =>
    simp only [cleanElems, Bool.and_eq_true, beq_iff_eq, and_assoc] at h
    obtain ⟨h1, hsc, h2, h3, h4, h5, h6, h7, h8, h9, h10⟩ := h
    obtain ⟨i, hid, htr⟩ := optTruthy_some h1
    rw [hid] at hsc
    exact ⟨d, i, rfl, hid, htr, hsc, h2, h3, h4, h5, h6, h7, h8, h9, h10⟩

theorem idNotInB_ne {io : Option Val} {rest : List Val} (h : idNotInB io rest = true) :
    ∀ d ∈ rest, ∀ i, d = Val.dict i → dictGet i "_id" ≠ io := by
  induction rest with
  | nil => intro d hd; simp at hd
  | cons e t ih =>
    intro d hd i hdi hio
    rcases List.mem_cons.mp hd with rfl | hd
    · subst hdi
      simp only [idNotInB, Bool.and_eq_true] at h
      rw [hio] at h
      simp at h
    · have ht : idNotInB io t = true := by
        cases e with
        | dict d2 =>
          simp only [idNotInB, Bool.and_eq_true] at h
          exact h.2
        | null => exact h
        | bool b => exact h
        | int n => exact h
        | str s2 => exact h
        | list l => exact h
      exact ih ht d hd i hdi hio

theorem collectDirs_none {i : Val} {d : Obj}
    (h1 : dictGet d "_after" = none) (h2 : dictGet d "_before" = none)
    (h3 : dictGet d "_position" = none) (h4 : dictGet d "_first" = none)
    (h5 : dictGet d "_last" = none) :
    collectDirs i d = [] := by
  simp [collectDirs, h1, h2, h3, h4, h5, optTruthy]

theorem apply_ordering_directives_nil (ids : List Val) :
    apply_ordering_directives ids [] = ids := by
  simp [apply_ordering_directives]

theorem splitItems_notid : ∀ (items : List Val) (m : VMap) (w : List Val),
    (∀ e ∈ items, notIdElem e = true) → splitItems items m w = (m, w ++ items) := by
  intro items
  induction items with
  | nil => intro m w _; simp [splitItems]
  | cons e rest ih =>
    intro m w hall
    have he := hall e (List.mem_cons_self _ _)
    have hrest := fun x hx => hall x (List.mem_cons_of_mem _ hx)
    match e with
    | .dict d =>
      simp only [notIdElem, Option.isNone_iff_eq_none] at he
      simp only [splitItems, he]
      rw [ih m (w ++ [Val.dict d]) hrest]
      simp
    | .null =>
      simp only [splitItems]
      rw [ih m (w ++ [Val.null]) hrest]
      simp
    | .bool b =>
      simp only [splitItems]
      rw [ih m (w ++ [Val.bool b]) hrest]
      simp
    | .int n =>
      simp only [splitItems]
      rw [ih m (w ++ [Val.int n]) hrest]
      simp
    | .str s2 =>
      simp only [splitItems]
      rw [ih m (w ++ [Val.str s2]) hrest]
      simp
    | .list l =>
      simp only [splitItems]
      rw [ih m (w ++ [Val.list l]) hrest]
      simp

theorem splitItems_clean : ∀ (items : List Val), cleanElems items = true →
    ∀ (m : VMap) (w : List Val),
      (∀ (d : Obj) (i : Val), Val.dict d ∈ items → dictGet d "_id" = some i →
        vmapGet m i = none) →
      splitItems items m w = (m ++ pairsOf items, w) := by
  intro items
  induction items with
  | nil => intro _ m w _; simp [splitItems, pairsOf]
  | cons e rest ih =>
    intro h m w hdisj
    obtain ⟨d, i, rfl, hid, htr, _, _, _, _, _, _, _, hobj, hnotin, hrest⟩ := cleanElems_cons h
    have hm : vmapGet m i = none := hdisj d i (List.mem_cons_self _ _) hid
    simp only [splitItems, hid]
    rw [vmapSet_append m i d hm]
    rw [ih hrest (m ++ [(i, d)]) w ?_]
    · simp only [pairsOf, hid, Option.getD_some, List.append_assoc, List.cons_append,
        List.nil_append]
    · intro d2 i2 hmem hid2
      have h1 : vmapGet m i2 = none := hdisj d2 i2 (List.mem_cons_of_mem _ hmem) hid2
      have h2 : i2 ≠ i := by
        intro he
        subst he
        exact idNotInB_ne hnotin (Val.dict d2) hmem d2 rfl (by rw [hid2, hid])
      refine vmapGet_append_none h1 ?_
      rw [vmapGet_cons]
      simp [h2, Ne.symm h2, vmapGet_nil]


theorem pyTruthy_ne_null {v : Val} (h : pyTruthy v = true) : v ≠ Val.null := by
  intro he
  subst he
  simp [pyTruthy] at h

theorem cleanObj_nodup {d : Obj} (h : cleanObj d = true) :
    (d.map Prod.fst).Nodup := by
  induction d with
  | nil => simp
  | cons kv rest ih =>
    obtain ⟨k0, v0⟩ := kv
    rw [cleanObj_cons] at h
    simp only [List.map_cons, List.nodup_cons]
    exact ⟨(dictGet_none_iff rest k0).mp h.1, ih h.2.2⟩

theorem deep_merge_nil (b : Obj) : deep_merge b [] = b := by
  simp [deep_merge]

theorem dmStep_self (res : Obj) (k : String) (v : Val)
    (hget : dictGet res k = some v)
    (hlist : ∀ vl, v = Val.list vl → merge_list_by_id vl vl = vl)
    (hdict : ∀ vd, v = Val.dict vd → deep_merge vd vd = vd) :
    dmStep res k v = res := by
  by_cases hv : v = Val.null
  · simp [dmStep, hv]
  · simp only [dmStep, hv, if_false, hget]
    match v, hget with
    | Val.list vl, hget =>
      show dictSet res k (Val.list (merge_list_by_id vl vl)) = res
      rw [hlist vl rfl]
      exact dictSet_same _ _ _ hget
    | Val.dict vd, hget =>
      show dictSet res k (Val.dict (deep_merge vd vd)) = res
      rw [hdict vd rfl]
      exact dictSet_same _ _ _ hget
    | Val.bool b2, hget => exact dictSet_same _ _ _ hget
    | Val.int n, hget => exact dictSet_same _ _ _ hget
    | Val.str s2, hget => exact dictSet_same _ _ _ hget


theorem vmapSet_mem {m : VMap} {k : Val} {v : Obj} :
    ∀ p ∈ vmapSet m k v, p ∈ m ∨ p = (k, v) := by
  induction m with
  | nil => intro p hp; simp [vmapSet] at hp; exact Or.inr hp
  | cons kv rest ih =>
    intro p hp
    by_cases hk : kv.1 = k
    · simp only [vmapSet, hk, if_true] at hp
      rcases List.mem_cons.mp hp with rfl | hp
      · exact Or.inr rfl
      · exact Or.inl (List.mem_cons_of_mem _ hp)
    · simp only [vmapSet, hk, if_false] at hp
      rcases List.mem_cons.mp hp with rfl | hp
      · exact Or.inl (List.mem_cons_self _ _)
      · rcases ih p hp with h | h
        · exact Or.inl (List.mem_cons_of_mem _ h)
        · exact Or.inr h

theorem vmapPop_mem {m : VMap} {k : Val} : ∀ p ∈ vmapPop m k, p ∈ m := by
  induction m with
  | nil => intro p hp; simp [vmapPop] at hp
  | cons kv rest ih =>
    intro p hp
    by_cases hk : kv.1 = k
    · simp only [vmapPop, hk, if_true] at hp
      exact List.mem_cons_of_mem _ hp
    · simp only [vmapPop, hk, if_false] at hp
      rcases List.mem_cons.mp hp with rfl | hp
      · exact List.mem_cons_self _ _
      · exact List.mem_cons_of_mem _ (ih p hp)

theorem vmapPop_sublist_keys {m : VMap} {k : Val} :
    ((vmapPop m k).map Prod.fst).Sublist (m.map Prod.fst) := by
  induction m with
  | nil => simp [vmapPop]
  | cons kv rest ih =>
    by_cases hk : kv.1 = k
    · simp only [vmapPop, hk, if_true, List.map_cons]
      exact (List.sublist_cons_self _ _).trans (List.Sublist.refl _) |>.trans
        (List.Sublist.refl _)
    · simp only [vmapPop, hk, if_false, List.map_cons]
      exact List.Sublist.cons₂ _ ih

theorem vmapNodup_vmapPop {m : VMap} {k : Val} (h : vmapNodup m) :
    vmapNodup (vmapPop m k) := by
  exact List.Nodup.sublist vmapPop_sublist_keys h

theorem vmapGet_vmapPop_self {m : VMap} {k : Val} (h : vmapNodup m) :
    vmapGet (vmapPop m k) k = none := by
  induction m with
  | nil => simp [vmapPop, vmapGet]
  | cons kv rest ih =>
    simp only [vmapNodup, List.map_cons, List.nodup_cons] at h
    by_cases hk : kv.1 = k
    · simp only [vmapPop, hk, if_true]
      rw [vmapGet_none_iff]
      rw [hk] at h
      exact h.1
    · simp only [vmapPop, hk, if_false]
      rw [vmapGet_cons, if_neg hk]
      exact ih h.2

theorem vmapGet_vmapPop_ne {m : VMap} {k k2 : Val} (h : k2 ≠ k) :
    vmapGet (vmapPop m k) k2 = vmapGet m k2 := by
  induction m with
  | nil => simp [vmapPop]
  | cons kv rest ih =>
    by_cases hk : kv.1 = k
    · simp only [vmapPop, hk, if_true]
      rw [vmapGet_cons, if_neg]
      rw [hk]
      exact fun he => h he.symm
    · simp only [vmapPop, hk, if_false]
      rw [vmapGet_cons, vmapGet_cons]
      split
      · rfl
      · exact ih

theorem pairsOf_key_mem {ol : List Val} (h : cleanElems ol = true) :
    ∀ i ∈ (pairsOf ol).map Prod.fst,
      ∃ d, Val.dict d ∈ ol ∧ dictGet d "_id" = some i := by
  induction ol with
  | nil => intro i hi; simp [pairsOf] at hi
  | cons e rest ih =>
    obtain ⟨d, i0, rfl, hid, _, _, _, _, _, _, _, _, _, _, hrest⟩ := cleanElems_cons h
    intro i hi
    simp only [pairsOf, hid, Option.getD_some, List.map_cons, List.mem_cons] at hi
    rcases hi with rfl | hi
    · exact ⟨d, List.mem_cons_self _ _, hid⟩
    · obtain ⟨d2, hd2, hid2⟩ := ih hrest i hi
      exact ⟨d2, List.mem_cons_of_mem _ hd2, hid2⟩

theorem pairsOf_nodup {ol : List Val} (h : cleanElems ol = true) :
    vmapNodup (pairsOf ol) := by
  induction ol with
  | nil => simp [pairsOf, vmapNodup]
  | cons e rest ih =>
    obtain ⟨d, i0, rfl, hid, _, _, _, _, _, _, _, _, _, hnotin, hrest⟩ := cleanElems_cons h
    simp only [vmapNodup, pairsOf, hid, Option.getD_some, List.map_cons, List.nodup_cons]
    refine ⟨?_, ih hrest⟩
    intro hmem
    obtain ⟨d2, hd2, hid2⟩ := pairsOf_key_mem hrest i0 hmem
    exact idNotInB_ne hnotin (Val.dict d2) hd2 d2 rfl (by rw [hid2, hid])

theorem pairsOf_idConsistent {ol : List Val} (h : cleanElems ol = true) :
    vmapIdConsistent (pairsOf ol) := by
  induction ol with
  | nil => intro p hp; simp [pairsOf] at hp
  | cons e rest ih =>
    obtain ⟨d, i0, rfl, hid, _, _, _, _, _, _, _, _, _, _, hrest⟩ := cleanElems_cons h
    intro p hp
    simp only [pairsOf, hid, Option.getD_some, List.mem_cons] at hp
    rcases hp with rfl | hp
    · exact hid
    · exact ih hrest p hp

theorem pairsOf_mapped {ol : List Val} (h : cleanElems ol = true) :
    (pairsOf ol).map (fun p => Val.dict p.2) = ol := by
  induction ol with
  | nil => simp [pairsOf]
  | cons e rest ih =>
    obtain ⟨d, i0, rfl, hid, _, _, _, _, _, _, _, _, _, _, hrest⟩ := cleanElems_cons h
    simp only [pairsOf, hid, Option.getD_some, List.map_cons]
    rw [ih hrest]

theorem pairsOf_get {ol : List Val} (h : cleanElems ol = true) :
    ∀ (d : Obj) (i : Val), Val.dict d ∈ ol → dictGet d "_id" = some i →
      vmapGet (pairsOf ol) i = some d := by
  induction ol with
  | nil => intro d i hd; simp at hd
  | cons e rest ih =>
    obtain ⟨d0, i0, rfl, hid0, _, _, _, _, _, _, _, _, _, hnotin, hrest⟩ := cleanElems_cons h
    intro d i hd hid
    simp only [pairsOf, hid0, Option.getD_some]
    rcases List.mem_cons.mp hd with he | hd
    · obtain rfl : d = d0 := by injection he
      rw [hid0] at hid
      obtain rfl : i0 = i := by injection hid
      rw [vmapGet_cons, if_pos rfl]
    · have hne : i0 ≠ i := by
        intro he2
        subst he2
        exact idNotInB_ne hnotin (Val.dict d) hd d rfl (by rw [hid, hid0])
      rw [vmapGet_cons, if_neg hne]
      exact ih hrest d i hd hid

theorem filterMap_get_congr {m1 m2 : VMap} : ∀ (ks : List Val),
    (∀ i ∈ ks, vmapGet m1 i = vmapGet m2 i) →
    ks.filterMap (fun i => (vmapGet m1 i).map Val.dict)
      = ks.filterMap (fun i => (vmapGet m2 i).map Val.dict) := by
  intro ks
  induction ks with
  | nil => intro _; rfl
  | cons i rest ih =>
    intro h
    simp only [List.filterMap_cons, h i (List.mem_cons_self _ _),
      ih (fun j hj => h j (List.mem_cons_of_mem _ hj))]

theorem vmap_reconstruct {mm : VMap} (h : vmapNodup mm) :
    (mm.map Prod.fst).filterMap (fun i => (vmapGet mm i).map Val.dict)
      = mm.map (fun p => Val.dict p.2) := by
  induction mm with
  | nil => simp
  | cons kv rest ih =>
    simp only [vmapNodup, List.map_cons, List.nodup_cons] at h
    have h1 : vmapGet (kv :: rest) kv.1 = some kv.2 := by
      rw [vmapGet_cons, if_pos rfl]
    have h2 : ∀ i ∈ rest.map Prod.fst, vmapGet (kv :: rest) i = vmapGet rest i := by
      intro i hi
      rw [vmapGet_cons, if_neg]
      intro he
      rw [he] at h
      exact h.1 hi
    simp only [List.map_cons, List.filterMap_cons, h1, Option.map_some]
    rw [filterMap_get_congr (rest.map Prod.fst) h2, ih h.2]
    rfl


theorem splitItems_inv : ∀ (items : List Val) (acc : VMap) (w : List Val),
    vmapNodup acc → vmapIdConsistent acc → (∀ e ∈ w, notIdElem e = true) →
    vmapNodup (splitItems items acc w).1 ∧ vmapIdConsistent (splitItems items acc w).1
      ∧ (∀ e ∈ (splitItems items acc w).2, notIdElem e = true) := by
  intro items
  induction items with
  | nil => intro acc w h1 h2 h3; exact ⟨h1, h2, h3⟩
  | cons e rest ih =>
    intro acc w h1 h2 h3
    match e with
    | .dict d =>
      cases hid : dictGet d "_id" with
      | some i =>
        simp only [splitItems, hid]
        exact ih (vmapSet acc i d) w (vmapNodup_vmapSet _ _ _ h1)
          (vmapIdConsistent_vmapSet _ _ _ h2 hid) h3
      | none =>
        simp only [splitItems, hid]
        refine ih acc (w ++ [Val.dict d]) h1 h2 ?_
        intro x hx
        rcases List.mem_append.mp hx with hx | hx
        · exact h3 x hx
        · simp only [List.mem_singleton] at hx
          subst hx
          simp [notIdElem, hid]
    | .null =>
      simp only [splitItems]
      refine ih acc (w ++ [Val.null]) h1 h2 ?_
      intro x hx
      rcases List.mem_append.mp hx with hx | hx
      · exact h3 x hx
      · simp only [List.mem_singleton] at hx
        subst hx
        simp [notIdElem]
    | .bool b =>
      simp only [splitItems]
      refine ih acc (w ++ [Val.bool b]) h1 h2 ?_
      intro x hx
      rcases List.mem_append.mp hx with hx | hx
      · exact h3 x hx
      · simp only [List.mem_singleton] at hx
        subst hx
        simp [notIdElem]
    | .int n =>
      simp only [splitItems]
      refine ih acc (w ++ [Val.int n]) h1 h2 ?_
      intro x hx
      rcases List.mem_append.mp hx with hx | hx
      · exact h3 x hx
      · simp only [List.mem_singleton] at hx
        subst hx
        simp [notIdElem]
    | .str s2 =>
      simp only [splitItems]
      refine ih acc (w ++ [Val.str s2]) h1 h2 ?_
      intro x hx
      rcases List.mem_append.mp hx with hx | hx
      · exact h3 x hx
      · simp only [List.mem_singleton] at hx
        subst hx
        simp [notIdElem]
    | .list l =>
      simp only [splitItems]
      refine ih acc (w ++ [Val.list l]) h1 h2 ?_
      intro x hx
      rcases List.mem_append.mp hx with hx | hx
      · exact h3 x hx
      · simp only [List.mem_singleton] at hx
        subst hx
        simp [notIdElem]

theorem splitItems_mapped : ∀ (mm : VMap) (acc : VMap) (w w0 : List Val),
    vmapIdConsistent mm → vmapNodup mm →
    (∀ p ∈ mm, vmapGet acc p.1 = none) →
    (∀ e ∈ w0, notIdElem e = true) →
    splitItems (mm.map (fun p => Val.dict p.2) ++ w0) acc w = (acc ++ mm, w ++ w0) := by
  intro mm
  induction mm with
  | nil =>
    intro acc w w0 _ _ _ hw0
    simp only [List.map_nil, List.nil_append, List.append_nil]
    exact splitItems_notid w0 acc w hw0
  | cons kv rest ih =>
    intro acc w w0 hcons hnd hfresh hw0
    obtain ⟨i, d⟩ := kv
    have hid : dictGet d "_id" = some i := hcons (i, d) (List.mem_cons_self _ _)
    simp only [vmapNodup, List.map_cons, List.nodup_cons] at hnd
    simp only [List.map_cons, List.cons_append, splitItems, hid, List.append_eq]
    rw [vmapSet_append acc i d (hfresh (i, d) (List.mem_cons_self _ _))]
    rw [ih (acc ++ [(i, d)]) w w0
      (fun p hp => hcons p (List.mem_cons_of_mem _ hp)) hnd.2 ?_ hw0]
    · rw [List.append_assoc]
      rfl
    · intro p hp
      refine vmapGet_append_none (hfresh p (List.mem_cons_of_mem _ hp)) ?_
      have hpi : p.1 ≠ i := by
        intro he
        exact hnd.1 (he ▸ List.mem_map_of_mem Prod.fst hp)
      rw [vmapGet_cons, if_neg (fun he => hpi he.symm)]
      exact vmapGet_nil _


theorem procOv_noop : ∀ (items : List Val), cleanElems items = true →
    ∀ (w : List Val) (rby bby : VMap) (dirs : List Directive),
    (∀ (d : Obj) (i : Val), Val.dict d ∈ items → dictGet d "_id" = some i →
      ∃ cur, vmapGet bby i = some cur ∧ vmapGet rby i = some cur
        ∧ deep_merge cur d = cur) →
    procOv items w rby bby dirs = (w, rby, dirs) := by
  intro items
  induction items with
  | nil => intro _ w rby bby dirs _; simp [procOv]
  | cons e rest ih =>
    intro h w rby bby dirs hcov
    obtain ⟨d, i, rfl, hid, htr, hsc, hact, haf, hbf, hpos, hfst, hlst, hobj,
      hnotin, hrest⟩ := cleanElems_cons h
    obtain ⟨cur, hbby, hrby, habs⟩ := hcov d i (List.mem_cons_self _ _) hid
    have hdirs : collectDirs i d = [] := collectDirs_none haf hbf hpos hfst hlst
    simp only [procOv, hid, hact, hbby, hdirs, Option.getD_some, optTruthy, htr,
      Option.isSome_some, List.append_nil, true_and, if_true, reduceCtorEq,
      if_false]
    rw [habs, vmapSet_same _ _ _ hrby]
    exact ih hrest w rby bby dirs
      (fun d2 i2 hd2 hid2 => hcov d2 i2 (List.mem_cons_of_mem _ hd2) hid2)

theorem procOv_run : ∀ (items : List Val), cleanElems items = true →
    ∀ (w : List Val) (rby bby : VMap) (dirs : List Directive),
    vmapNodup rby → vmapIdConsistent rby →
    (∀ (d : Obj), Val.dict d ∈ items →
      (∀ c : Obj, deep_merge (deep_merge c d) d = deep_merge c d)
        ∧ deep_merge d d = d) →
    ∃ rby2, procOv items w rby bby dirs = (w, rby2, dirs)
      ∧ vmapNodup rby2 ∧ vmapIdConsistent rby2
      ∧ (∀ (d : Obj) (i : Val), Val.dict d ∈ items → dictGet d "_id" = some i →
           ∃ cur, vmapGet rby2 i = some cur ∧ deep_merge cur d = cur)
      ∧ (∀ k : Val,
           (∀ (d2 : Obj) (i2 : Val), Val.dict d2 ∈ items →
              dictGet d2 "_id" = some i2 → i2 ≠ k) →
           vmapGet rby2 k = vmapGet rby k) := by
  intro items
  induction items with
  | nil =>
    intro _ w rby bby dirs h1 h2 _
    refine ⟨rby, by simp [procOv], h1, h2, ?_, ?_⟩
    · intro d i hd; simp at hd
    · intro k _; rfl
  | cons e rest ih =>
    intro h w rby bby dirs hnd hcons habs
    obtain ⟨d, i, rfl, hid, htr, hsc, hact, haf, hbf, hpos, hfst, hlst, hobj,
      hnotin, hrest⟩ := cleanElems_cons h
    have hdirs : collectDirs i d = [] := collectDirs_none haf hbf hpos hfst hlst
    have habs0 := habs d (List.mem_cons_self _ _)
    have habsrest := fun d2 hd2 => habs d2 (List.mem_cons_of_mem _ hd2)
    -- the value stored for id i, and its properties
    have hsetup : ∃ v, (if (vmapGet bby i).isSome
          then vmapSet rby i (deep_merge ((vmapGet bby i).getD []) d)
          else vmapSet rby i d) = vmapSet rby i v
        ∧ deep_merge v d = v ∧ dictGet v "_id" = some i := by
      cases hb : vmapGet bby i with
      | some cur0 =>
        refine ⟨deep_merge cur0 d, by simp [hb], habs0.1 cur0, ?_⟩
        exact dm_get_scalar d cur0 "_id" i (cleanObj_nodup hobj) hid
          (pyTruthy_ne_null htr) hsc
      | none => exact ⟨d, by simp [hb], habs0.2, hid⟩
    obtain ⟨v, hvset, hvabs, hvid⟩ := hsetup
    have hstep : procOv (Val.dict d :: rest) w rby bby dirs
        = procOv rest w (vmapSet rby i v) bby dirs := by
      simp only [procOv, hid, hact, hdirs, Option.getD_some, optTruthy, htr,
        Option.isSome_some, true_and, reduceCtorEq, if_false, List.append_nil]
      by_cases hb : (vmapGet bby i).isSome
      · rw [if_pos hb]
        rw [if_pos hb] at hvset
        rw [hvset]
        simp
      · rw [if_neg hb]
        rw [if_neg hb] at hvset
        rw [hvset]
        simp
    obtain ⟨rby2, hrun, hnd2, hcons2, hcov2, hpres2⟩ :=
      ih hrest w (vmapSet rby i v) bby dirs (vmapNodup_vmapSet _ _ _ hnd)
        (vmapIdConsistent_vmapSet _ _ _ hcons hvid) habsrest
    refine ⟨rby2, hstep.trans hrun, hnd2, hcons2, ?_, ?_⟩
    · intro d2 i2 hd2 hid2
      rcases List.mem_cons.mp hd2 with he | hd2
      · obtain rfl : d2 = d := by injection he
        rw [hid] at hid2
        obtain rfl : i = i2 := by injection hid2
        refine ⟨v, ?_, hvabs⟩
        rw [hpres2 i ?_]
        · exact vmapGet_vmapSet_self _ _ _
        · intro d3 i3 hd3 hid3 he3
          subst he3
          exact idNotInB_ne hnotin (Val.dict d3) hd3 d3 rfl (by rw [hid3, hid])
      · exact hcov2 d2 i2 hd2 hid2
    · intro k hk
      rw [hpres2 k (fun d2 i2 hd2 hid2 =>
        hk d2 i2 (List.mem_cons_of_mem _ hd2) hid2)]
      exact vmapGet_vmapSet_ne _ _ _ _
        (Ne.symm (hk d i (List.mem_cons_self _ _) hid))


theorem cleanResource_parts {r : Obj} (h : cleanResource r = true) :
    ∃ v, get_resource_name r = some v ∧ pyTruthy v = true ∧ isScalar v = true
      ∧ cleanObj r = true := by
  simp only [cleanResource, Bool.and_eq_true] at h
  obtain ⟨h1, h2⟩ := h
  cases hn : get_resource_name r with
  | none => rw [hn] at h1; simp at h1
  | some v =>
    rw [hn] at h1
    simp only [Bool.and_eq_true] at h1
    exact ⟨v, rfl, h1.1, h1.2, h2⟩

theorem cleanOverride_cons {r : Obj} {rest : List Obj}
    (h : cleanOverride (r :: rest) = true) :
    cleanResource r = true ∧ nameNotInB (get_resource_name r) rest = true
      ∧ cleanOverride rest = true := by
  simp only [cleanOverride, List.all_cons, namesNodupB, Bool.and_eq_true] at h
  obtain ⟨⟨h1, h2⟩, h3, h4⟩ := h
  refine ⟨h1, h3, ?_⟩
  simp only [cleanOverride, Bool.and_eq_true]
  exact ⟨h2, h4⟩

theorem nameNotInB_ne {n : Option Val} {rest : List Obj}
    (h : nameNotInB n rest = true) :
    ∀ r ∈ rest, get_resource_name r ≠ n := by
  induction rest with
  | nil => intro r hr; simp at hr
  | cons r0 t ih =>
    intro r hr
    simp only [nameNotInB, Bool.and_eq_true] at h
    rcases List.mem_cons.mp hr with rfl | hr
    · intro he
      rw [he] at h
      simp at h
    · exact ih h.2 r hr

theorem name_dm (r cur : Obj) (v : Val) (hobj : cleanObj r = true)
    (hname : get_resource_name r = some v) (hsc : isScalar v = true)
    (htr : pyTruthy v = true) (hcur : get_resource_name cur = some v) :
    get_resource_name (deep_merge cur r) = some v := by
  have hv : v ≠ Val.null := pyTruthy_ne_null htr
  unfold get_resource_name at hname hcur ⊢
  cases hp : dictGet r "policy_name" with
  | some w =>
    rw [hp] at hname
    obtain rfl : w = v := by injection hname
    rw [dm_get_scalar r cur "policy_name" w (cleanObj_nodup hobj) hp hv hsc]
  | none =>
    rw [hp] at hname
    have hf := dm_get_frame r cur "policy_name" hp
    cases hcp : dictGet cur "policy_name" with
    | some u =>
      rw [hcp] at hcur
      obtain rfl : u = v := by injection hcur
      rw [hf, hcp]
    | none => rw [hf, hcp,
        dm_get_scalar r cur "name" v (cleanObj_nodup hobj) hname hv hsc]

theorem mrIndexBase_inv : ∀ (bl : List Obj) (acc : VMap),
    vmapNodup acc →
    (∀ p ∈ acc, get_resource_name p.2 = some p.1 ∧ pyTruthy p.1 = true) →
    vmapNodup (mrIndexBase bl acc)
      ∧ ∀ p ∈ mrIndexBase bl acc,
          get_resource_name p.2 = some p.1 ∧ pyTruthy p.1 = true := by
  intro bl
  induction bl with
  | nil => intro acc h1 h2; exact ⟨h1, h2⟩
  | cons r rest ih =>
    intro acc h1 h2
    cases hn : get_resource_name r with
    | none =>
      simp only [mrIndexBase, hn]
      exact ih acc h1 h2
    | some v =>
      simp only [mrIndexBase, hn]
      by_cases htr : pyTruthy v = true
      · rw [if_pos htr]
        refine ih _ (vmapNodup_vmapSet _ _ _ h1) ?_
        intro p hp
        rcases vmapSet_mem p hp with hp | hp
        · exact h2 p hp
        · subst hp
          exact ⟨hn, htr⟩
      · rw [if_neg htr]
        exact ih acc h1 h2

theorem mrIndexBase_mapped : ∀ (mm : VMap) (acc : VMap),
    (∀ p ∈ mm, get_resource_name p.2 = some p.1 ∧ pyTruthy p.1 = true) →
    vmapNodup mm →
    (∀ p ∈ mm, vmapGet acc p.1 = none) →
    mrIndexBase (mm.map Prod.snd) acc = acc ++ mm := by
  intro mm
  induction mm with
  | nil => intro acc _ _ _; simp [mrIndexBase]
  | cons kv rest ih =>
    intro acc hcons hnd hfresh
    obtain ⟨v, r⟩ := kv
    obtain ⟨hn, htr⟩ := hcons (v, r) (List.mem_cons_self _ _)
    simp only [vmapNodup, List.map_cons, List.nodup_cons] at hnd
    simp only [List.map_cons, mrIndexBase, hn, if_pos htr]
    rw [vmapSet_append acc v r (hfresh (v, r) (List.mem_cons_self _ _))]
    rw [ih (acc ++ [(v, r)]) (fun p hp => hcons p (List.mem_cons_of_mem _ hp))
      hnd.2 ?_]
    · rw [List.append_assoc]
      rfl
    · intro p hp
      refine vmapGet_append_none (hfresh p (List.mem_cons_of_mem _ hp)) ?_
      have hpv : p.1 ≠ v := by
        intro he
        exact hnd.1 (he ▸ List.mem_map_of_mem Prod.fst hp)
      rw [vmapGet_cons, if_neg (fun he => hpv he.symm)]
      exact vmapGet_nil _

theorem mrOv_cons_step (r : Obj) (rest : List Obj) (acc : VMap) (v : Val)
    (hname : get_resource_name r = some v) (hv : v ≠ Val.null)
    (hsc : isScalar v = true) :
    mrOv (r :: rest) acc =
      if isDeleteRes r then mrOv rest (vmapPop acc v)
      else match vmapGet acc v with
        | some cur => mrOv rest (vmapSet acc v (deep_merge cur r))
        | none => mrOv rest (vmapSet acc v r) := by
  match v, hv, hsc with
  | .bool b, _, _ => simp only [mrOv, hname]
  | .int n, _, _ => simp only [mrOv, hname]
  | .str s2, _, _ => simp only [mrOv, hname]


theorem mrOv_noop : ∀ (ol : List Obj), cleanOverride ol = true →
    ∀ (acc : VMap), vmapNodup acc →
    (∀ (r : Obj) (v : Val), r ∈ ol → get_resource_name r = some v →
       if isDeleteRes r then vmapGet acc v = none
       else ∃ cur, vmapGet acc v = some cur ∧ deep_merge cur r = cur) →
    mrOv ol acc = some acc := by
  intro ol
  induction ol with
  | nil => intro _ acc _ _; rfl
  | cons r rest ih =>
    intro h acc hnd hcov
    obtain ⟨hres, hnotin, hrest⟩ := cleanOverride_cons h
    obtain ⟨v, hname, htr, hsc, hobj⟩ := cleanResource_parts hres
    have hcov0 := hcov r v (List.mem_cons_self _ _) hname
    have hcovrest := fun r2 v2 hr2 hv2 =>
      hcov r2 v2 (List.mem_cons_of_mem _ hr2) hv2
    rw [mrOv_cons_step r rest acc v hname (pyTruthy_ne_null htr) hsc]
    by_cases hdel : isDeleteRes r = true
    · rw [if_pos hdel]
      rw [if_pos hdel] at hcov0
      rw [vmapPop_absent acc v hcov0]
      exact ih hrest acc hnd hcovrest
    · rw [if_neg hdel]
      rw [if_neg hdel] at hcov0
      obtain ⟨cur, hget, habs⟩ := hcov0
      rw [hget]
      show mrOv rest (vmapSet acc v (deep_merge cur r)) = some acc
      rw [habs, vmapSet_same _ _ _ hget]
      exact ih hrest acc hnd hcovrest

theorem mrOv_run : ∀ (ol : List Obj), cleanOverride ol = true →
    ∀ (acc : VMap), vmapNodup acc →
    (∀ p ∈ acc, get_resource_name p.2 = some p.1 ∧ pyTruthy p.1 = true) →
    (∀ (r : Obj), r ∈ ol →
      (∀ c : Obj, deep_merge (deep_merge c r) r = deep_merge c r)
        ∧ deep_merge r r = r) →
    ∃ acc2, mrOv ol acc = some acc2
      ∧ vmapNodup acc2
      ∧ (∀ p ∈ acc2, get_resource_name p.2 = some p.1 ∧ pyTruthy p.1 = true)
      ∧ (∀ (r : Obj) (v : Val), r ∈ ol → get_resource_name r = some v →
           if isDeleteRes r then vmapGet acc2 v = none
           else ∃ cur, vmapGet acc2 v = some cur ∧ deep_merge cur r = cur)
      ∧ (∀ k : Val,
           (∀ (r2 : Obj) (v2 : Val), r2 ∈ ol → get_resource_name r2 = some v2 →
              v2 ≠ k) →
           vmapGet acc2 k = vmapGet acc k) := by
  intro ol
  induction ol with
  | nil =>
    intro _ acc h1 h2 _
    refine ⟨acc, rfl, h1, h2, ?_, ?_⟩
    · intro r v hr; simp at hr
    · intro k _; rfl
  | cons r rest ih =>
    intro h acc hnd hcons habs
    obtain ⟨hres, hnotin, hrest⟩ := cleanOverride_cons h
    obtain ⟨v, hname, htr, hsc, hobj⟩ := cleanResource_parts hres
    have habs0 := habs r (List.mem_cons_self _ _)
    have habsrest := fun r2 hr2 => habs r2 (List.mem_cons_of_mem _ hr2)
    have hrestne : ∀ r2 ∈ rest, ∀ v2, get_resource_name r2 = some v2 → v2 ≠ v := by
      intro r2 hr2 v2 hv2 he
      subst he
      exact nameNotInB_ne hnotin r2 hr2 (hv2.trans hname.symm)
    rw [mrOv_cons_step r rest acc v hname (pyTruthy_ne_null htr) hsc]
    by_cases hdel : isDeleteRes r = true
    · rw [if_pos hdel]
      obtain ⟨acc2, hrun, hnd2, hcons2, hcov2, hpres2⟩ :=
        ih hrest (vmapPop acc v) (vmapNodup_vmapPop hnd)
          (fun p hp => hcons p (vmapPop_mem p hp)) habsrest
      refine ⟨acc2, hrun, hnd2, hcons2, ?_, ?_⟩
      · intro r2 v2 hr2 hv2
        rcases List.mem_cons.mp hr2 with rfl | hr2
        · obtain rfl : v = v2 := by
            have h9 := hname.symm.trans hv2
            injection h9
          rw [if_pos hdel]
          rw [hpres2 v (fun r3 v3 hr3 hv3 => hrestne r3 hr3 v3 hv3)]
          exact vmapGet_vmapPop_self hnd
        · exact hcov2 r2 v2 hr2 hv2
      · intro k hk
        rw [hpres2 k (fun r2 v2 hr2 hv2 =>
          hk r2 v2 (List.mem_cons_of_mem _ hr2) hv2)]
        exact vmapGet_vmapPop_ne
          (Ne.symm (hk r v (List.mem_cons_self _ _) hname))
    · rw [if_neg hdel]
      have hsetup : ∃ w, (match vmapGet acc v with
            | some cur => mrOv rest (vmapSet acc v (deep_merge cur r))
            | none => mrOv rest (vmapSet acc v r))
          = mrOv rest (vmapSet acc v w)
          ∧ deep_merge w r = w ∧ get_resource_name w = some v := by
        cases hb : vmapGet acc v with
        | some cur =>
          have hcur : get_resource_name cur = some v := by
            have hmem : (v, cur) ∈ acc := by
              unfold vmapGet at hb
              cases hf : acc.find? (fun kv => kv.1 == v) with
              | none => rw [hf] at hb; simp at hb
              | some kv =>
                rw [hf] at hb
                obtain rfl : kv.2 = cur := by injection hb
                have h1 := List.find?_some hf
                have h2 := List.mem_of_find?_eq_some hf
                simp only [beq_iff_eq] at h1
                rw [← h1]
                exact h2
            exact (hcons (v, cur) hmem).1
          exact ⟨deep_merge cur r, rfl, habs0.1 cur,
            name_dm r cur v hobj hname hsc htr hcur⟩
        | none => exact ⟨r, rfl, habs0.2, hname⟩
      obtain ⟨w, hwstep, hwabs, hwname⟩ := hsetup
      rw [hwstep]
      have hconsSet : ∀ p ∈ vmapSet acc v w,
          get_resource_name p.2 = some p.1 ∧ pyTruthy p.1 = true := by
        intro p hp
        rcases vmapSet_mem p hp with hp | hp
        · exact hcons p hp
        · subst hp
          exact ⟨hwname, htr⟩
      obtain ⟨acc2, hrun, hnd2, hcons2, hcov2, hpres2⟩ :=
        ih hrest (vmapSet acc v w) (vmapNodup_vmapSet _ _ _ hnd) hconsSet habsrest
      refine ⟨acc2, hrun, hnd2, hcons2, ?_, ?_⟩
      · intro r2 v2 hr2 hv2
        rcases List.mem_cons.mp hr2 with rfl | hr2
        · obtain rfl : v = v2 := by
            have h9 := hname.symm.trans hv2
            injection h9
          rw [if_neg hdel]
          refine ⟨w, ?_, hwabs⟩
          rw [hpres2 v (fun r3 v3 hr3 hv3 => hrestne r3 hr3 v3 hv3)]
          exact vmapGet_vmapSet_self _ _ _
        · exact hcov2 r2 v2 hr2 hv2
      · intro k hk
        rw [hpres2 k (fun r2 v2 hr2 hv2 =>
          hk r2 v2 (List.mem_cons_of_mem _ hr2) hv2)]
        exact vmapGet_vmapSet_ne _ _ _ _
          (Ne.symm (hk r v (List.mem_cons_self _ _) hname))


theorem cleanElems_mem {ol : List Val} (h : cleanElems ol = true) :
    ∀ d : Obj, Val.dict d ∈ ol → cleanObj d = true := by
  induction ol with
  | nil => intro d hd; simp at hd
  | cons e rest ih =>
    obtain ⟨d0, i0, rfl, _, _, _, _, _, _, _, _, _, hobj, _, hrest⟩ :=
      cleanElems_cons h
    intro d hd
    rcases List.mem_cons.mp hd with he | hd
    · obtain rfl : d = d0 := by injection he
      exact hobj
    · exact ih hrest d hd

theorem dmStep_absorb (b r : Obj) (k : String) (v : Val)
    (hrk : dictGet r k = dictGet (dmStep b k v) k)
    (hA2 : ∀ vl, v = Val.list vl → merge_list_by_id vl vl = vl)
    (hA1 : ∀ vd, v = Val.dict vd → deep_merge vd vd = vd)
    (hC2 : ∀ vl bl2, v = Val.list vl →
      merge_list_by_id (merge_list_by_id bl2 vl) vl = merge_list_by_id bl2 vl)
    (hC1 : ∀ vd bd2, v = Val.dict vd →
      deep_merge (deep_merge bd2 vd) vd = deep_merge bd2 vd) :
    dmStep r k v = r := by
  match v with
  | Val.null => simp [dmStep]
  | Val.bool bv =>
    have hg : dictGet r k = some (Val.bool bv) := by
      rw [hrk]
      simp only [dmStep, reduceCtorEq, if_false]
      cases hbk : dictGet b k with
      | none => exact dictGet_dictSet_self _ _ _
      | some cur => cases cur <;> exact dictGet_dictSet_self _ _ _
    exact dmStep_self r k _ hg (fun vl h => nomatch h) (fun vd h => nomatch h)
  | Val.int nv =>
    have hg : dictGet r k = some (Val.int nv) := by
      rw [hrk]
      simp only [dmStep, reduceCtorEq, if_false]
      cases hbk : dictGet b k with
      | none => exact dictGet_dictSet_self _ _ _
      | some cur => cases cur <;> exact dictGet_dictSet_self _ _ _
    exact dmStep_self r k _ hg (fun vl h => nomatch h) (fun vd h => nomatch h)
  | Val.str sv =>
    have hg : dictGet r k = some (Val.str sv) := by
      rw [hrk]
      simp only [dmStep, reduceCtorEq, if_false]
      cases hbk : dictGet b k with
      | none => exact dictGet_dictSet_self _ _ _
      | some cur => cases cur <;> exact dictGet_dictSet_self _ _ _
    exact dmStep_self r k _ hg (fun vl h => nomatch h) (fun vd h => nomatch h)
  | Val.list vl =>
    have hg : ∃ X, dictGet r k = some (Val.list X) ∧ merge_list_by_id X vl = X := by
      rw [hrk]
      simp only [dmStep, reduceCtorEq, if_false]
      cases hbk : dictGet b k with
      | none => exact ⟨vl, dictGet_dictSet_self _ _ _, hA2 vl rfl⟩
      | some cur =>
        cases cur with
        | list cl =>
          exact ⟨merge_list_by_id cl vl, dictGet_dictSet_self _ _ _, hC2 vl cl rfl⟩
        | null => exact ⟨vl, dictGet_dictSet_self _ _ _, hA2 vl rfl⟩
        | bool b2 => exact ⟨vl, dictGet_dictSet_self _ _ _, hA2 vl rfl⟩
        | int n2 => exact ⟨vl, dictGet_dictSet_self _ _ _, hA2 vl rfl⟩
        | str s2 => exact ⟨vl, dictGet_dictSet_self _ _ _, hA2 vl rfl⟩
        | dict d2 => exact ⟨vl, dictGet_dictSet_self _ _ _, hA2 vl rfl⟩
    obtain ⟨X, hgX, hXabs⟩ := hg
    simp only [dmStep, reduceCtorEq, if_false, hgX]
    show dictSet r k (Val.list (merge_list_by_id X vl)) = r
    rw [hXabs]
    exact dictSet_same _ _ _ hgX
  | Val.dict vd =>
    have hg : ∃ X, dictGet r k = some (Val.dict X) ∧ deep_merge X vd = X := by
      rw [hrk]
      simp only [dmStep, reduceCtorEq, if_false]
      cases hbk : dictGet b k with
      | none => exact ⟨vd, dictGet_dictSet_self _ _ _, hA1 vd rfl⟩
      | some cur =>
        cases cur with
        | dict cd =>
          exact ⟨deep_merge cd vd, dictGet_dictSet_self _ _ _, hC1 vd cd rfl⟩
        | null => exact ⟨vd, dictGet_dictSet_self _ _ _, hA1 vd rfl⟩
        | bool b2 => exact ⟨vd, dictGet_dictSet_self _ _ _, hA1 vd rfl⟩
        | int n2 => exact ⟨vd, dictGet_dictSet_self _ _ _, hA1 vd rfl⟩
        | str s2 => exact ⟨vd, dictGet_dictSet_self _ _ _, hA1 vd rfl⟩
        | list l2 => exact ⟨vd, dictGet_dictSet_self _ _ _, hA1 vd rfl⟩
    obtain ⟨X, hgX, hXabs⟩ := hg
    simp only [dmStep, reduceCtorEq, if_false, hgX]
    show dictSet r k (Val.dict (deep_merge X vd)) = r
    rw [hXabs]
    exact dictSet_same _ _ _ hgX


theorem cleanMergeMain : ∀ n : Nat,
    (∀ d : Obj, sizeOf d ≤ n → cleanObj d = true →
      ∀ res : Obj, (∀ kv ∈ d, dictGet res kv.1 = some kv.2) →
        deep_merge res d = res)
    ∧ (∀ ol : List Val, sizeOf ol ≤ n → cleanElems ol = true →
        merge_list_by_id ol ol = ol)
    ∧ (∀ d : Obj, sizeOf d ≤ n → cleanObj d = true →
        ∀ b : Obj, deep_merge (deep_merge b d) d = deep_merge b d)
    ∧ (∀ ol : List Val, sizeOf ol ≤ n → cleanElems ol = true →
        ∀ bl : List Val,
          merge_list_by_id (merge_list_by_id bl ol) ol = merge_list_by_id bl ol) := by
  intro n
  induction n with
  | zero =>
    refine ⟨?_, ?_, ?_, ?_⟩
    · intro d hsz
      cases d <;> simp at hsz
    · intro ol hsz
      cases ol <;> simp at hsz
    · intro d hsz
      cases d <;> simp at hsz
    · intro ol hsz
      cases ol <;> simp at hsz
  | succ n IH =>
    have partA : ∀ d : Obj, sizeOf d ≤ n + 1 → cleanObj d = true →
        ∀ res : Obj, (∀ kv ∈ d, dictGet res kv.1 = some kv.2) →
          deep_merge res d = res := by
      intro d
      match d with
      | [] => intro _ _ res _; exact deep_merge_nil res
      | (k, v) :: rest =>
        intro hsz hcl res hres
        rw [cleanObj_cons] at hcl
        obtain ⟨hk, hv, hrest⟩ := hcl
        have hszc : sizeOf ((k, v) :: rest) = 1 + (1 + sizeOf k + sizeOf v) + sizeOf rest := by
          simp
        have hszrest : sizeOf rest ≤ n := by omega
        have hstep : dmStep res k v = res := by
          refine dmStep_self res k v (hres (k, v) (List.mem_cons_self _ _)) ?_ ?_
          · intro vl hveq
            subst hveq
            have hsvl : sizeOf vl ≤ n := by
              have hh : sizeOf (Val.list vl) = 1 + sizeOf vl := by simp
              omega
            exact IH.2.1 vl hsvl hv
          · intro vd hveq
            subst hveq
            have hsvd : sizeOf vd ≤ n := by
              have hh : sizeOf (Val.dict vd) = 1 + sizeOf vd := by simp
              omega
            exact IH.1 vd hsvd hv vd (cleanObj_self_get hv)
        simp only [deep_merge]
        rw [hstep]
        exact IH.1 rest hszrest hrest res
          (fun kv hkv => hres kv (List.mem_cons_of_mem _ hkv))
    have partC : ∀ d : Obj, sizeOf d ≤ n + 1 → cleanObj d = true →
        ∀ b : Obj, deep_merge (deep_merge b d) d = deep_merge b d := by
      intro d
      match d with
      | [] => intro _ _ b; rw [deep_merge_nil]
      | (k, v) :: rest =>
        intro hsz hcl b
        rw [cleanObj_cons] at hcl
        obtain ⟨hk, hv, hrest⟩ := hcl
        have hszc : sizeOf ((k, v) :: rest) = 1 + (1 + sizeOf k + sizeOf v) + sizeOf rest := by
          simp
        have hszrest : sizeOf rest ≤ n := by omega
        simp only [deep_merge]
        have hrk : dictGet (deep_merge (dmStep b k v) rest) k
            = dictGet (dmStep b k v) k :=
          dm_get_frame rest (dmStep b k v) k hk
        have hstep : dmStep (deep_merge (dmStep b k v) rest) k v
            = deep_merge (dmStep b k v) rest := by
          refine dmStep_absorb b _ k v hrk ?_ ?_ ?_ ?_
          · intro vl hveq
            subst hveq
            have hsvl : sizeOf vl ≤ n := by
              have hh : sizeOf (Val.list vl) = 1 + sizeOf vl := by simp
              omega
            exact IH.2.1 vl hsvl hv
          · intro vd hveq
            subst hveq
            have hsvd : sizeOf vd ≤ n := by
              have hh : sizeOf (Val.dict vd) = 1 + sizeOf vd := by simp
              omega
            exact IH.1 vd hsvd hv vd (cleanObj_self_get hv)
          · intro vl bl2 hveq
            subst hveq
            have hsvl : sizeOf vl ≤ n := by
              have hh : sizeOf (Val.list vl) = 1 + sizeOf vl := by simp
              omega
            exact IH.2.2.2 vl hsvl hv bl2
          · intro vd bd2 hveq
            subst hveq
            have hsvd : sizeOf vd ≤ n := by
              have hh : sizeOf (Val.dict vd) = 1 + sizeOf vd := by simp
              omega
            exact IH.2.2.1 vd hsvd hv bd2
        rw [hstep]
        exact IH.2.2.1 rest hszrest hrest (dmStep b k v)
    have hself : ∀ (ol : List Val), sizeOf ol ≤ n + 1 → cleanElems ol = true →
        ∀ (d : Obj), Val.dict d ∈ ol →
          (∀ c : Obj, deep_merge (deep_merge c d) d = deep_merge c d)
            ∧ deep_merge d d = d := by
      intro ol hsz hcl d hd
      have hobj := cleanElems_mem hcl d hd
      have hsd : sizeOf d ≤ n := by
        have h1 : sizeOf (Val.dict d) < sizeOf ol := List.sizeOf_lt_of_mem hd
        have h2 : sizeOf (Val.dict d) = 1 + sizeOf d := by simp
        omega
      exact ⟨fun c => IH.2.2.1 d hsd hobj c,
        IH.1 d hsd hobj d (cleanObj_self_get hobj)⟩
    have partB : ∀ ol : List Val, sizeOf ol ≤ n + 1 → cleanElems ol = true →
        merge_list_by_id ol ol = ol := by
      intro ol hsz hcl
      have hs := splitItems_clean ol hcl [] [] (fun d i _ _ => vmapGet_nil i)
      rw [List.nil_append] at hs
      have hcov : ∀ (d : Obj) (i : Val), Val.dict d ∈ ol → dictGet d "_id" = some i →
          ∃ cur, vmapGet (pairsOf ol) i = some cur
            ∧ vmapGet (pairsOf ol) i = some cur ∧ deep_merge cur d = cur := by
        intro d i hd hid
        exact ⟨d, pairsOf_get hcl d i hd hid, pairsOf_get hcl d i hd hid,
          (hself ol hsz hcl d hd).2⟩
      have hnoop := procOv_noop ol hcl [] (pairsOf ol) (pairsOf ol) [] hcov
      simp only [merge_list_by_id, hs, hnoop, apply_ordering_directives_nil,
        List.append_nil]
      rw [vmap_reconstruct (pairsOf_nodup hcl)]
      exact pairsOf_mapped hcl
    have partD : ∀ ol : List Val, sizeOf ol ≤ n + 1 → cleanElems ol = true →
        ∀ bl : List Val,
          merge_list_by_id (merge_list_by_id bl ol) ol = merge_list_by_id bl ol := by
      intro ol hsz hcl bl
      cases hsp : splitItems bl [] [] with
      | mk m0 w0 =>
        have hinv := splitItems_inv bl [] [] (by simp [vmapNodup])
          (fun p hp => absurd hp (by simp)) (fun e he => absurd he (by simp))
        rw [hsp] at hinv
        obtain ⟨hnd0, hcons0, hw0⟩ := hinv
        obtain ⟨rby1, hrun1, hnd1, hcons1, hcov1, hpres1⟩ :=
          procOv_run ol hcl w0 m0 m0 [] hnd0 hcons0 (hself ol hsz hcl)
        have e1 : merge_list_by_id bl ol
            = rby1.map (fun p => Val.dict p.2) ++ w0 := by
          simp only [merge_list_by_id, hsp, hrun1, apply_ordering_directives_nil]
          rw [vmap_reconstruct hnd1]
        have hsp2 : splitItems (rby1.map (fun p => Val.dict p.2) ++ w0) [] []
            = (rby1, w0) := by
          have hm := splitItems_mapped rby1 [] [] w0 hcons1 hnd1
            (fun p _ => vmapGet_nil _) hw0
          simpa using hm
        have hcov : ∀ (d : Obj) (i : Val), Val.dict d ∈ ol → dictGet d "_id" = some i →
            ∃ cur, vmapGet rby1 i = some cur
              ∧ vmapGet rby1 i = some cur ∧ deep_merge cur d = cur := by
          intro d i hd hid
          obtain ⟨cur, h1, h2⟩ := hcov1 d i hd hid
          exact ⟨cur, h1, h1, h2⟩
        have hnoop := procOv_noop ol hcl w0 rby1 rby1 [] hcov
        have e2 : merge_list_by_id (rby1.map (fun p => Val.dict p.2) ++ w0) ol
            = rby1.map (fun p => Val.dict p.2) ++ w0 := by
          simp only [merge_list_by_id, hsp2, hnoop, apply_ordering_directives_nil]
          rw [vmap_reconstruct hnd1]
        rw [e1, e2]
    exact ⟨partA, partB, partC, partD⟩


/-! ## C2: idempotence of `merge_resources` in the override -/

/-- C2 counterexample: re-applying the same override list to the
already-merged result is NOT the identity in general.  An override
resource carrying a nested list with an anonymous (id-less) element
appends that element again on every application: with base
`[{name: "a", items: [1]}]` and override `[{name: "a", items: [2]}]`
the first merge yields `items = [1, 2]` and the second yields
`items = [1, 2, 2]`, refuting `merge(merge(base, ovr), ovr) ==
merge(base, ovr)` precisely on the anonymous-element case the claim
includes. -/
theorem C2_counterexample :
    merge_resources [[("name", Val.str "a"), ("items", Val.list [Val.int 1])]]
        [[("name", Val.str "a"), ("items", Val.list [Val.int 2])]]
      = some [[("name", Val.str "a"), ("items", Val.list [Val.int 1, Val.int 2])]]
    ∧ merge_resources
        [[("name", Val.str "a"), ("items", Val.list [Val.int 1, Val.int 2])]]
        [[("name", Val.str "a"), ("items", Val.list [Val.int 2])]]
      = some [[("name", Val.str "a"),
          ("items", Val.list [Val.int 1, Val.int 2, Val.int 2])]]
    ∧ ([[("name", Val.str "a"),
          ("items", Val.list [Val.int 1, Val.int 2, Val.int 2])]] : List Obj)
        ≠ [[("name", Val.str "a"), ("items", Val.list [Val.int 1, Val.int 2])]] :=
  ⟨by simp [merge_resources, mrOv, mrIndexBase, get_resource_name, isDeleteRes,
        deep_merge, dmStep, dictGet, dictSet, vmapGet, vmapSet, vmapPop,
        pyTruthy, optTruthy, List.find?, merge_list_by_id, procOv, splitItems,
        collectDirs, apply_ordering_directives, applyDir, directive_priority],
   by simp [merge_resources, mrOv, mrIndexBase, get_resource_name, isDeleteRes,
        deep_merge, dmStep, dictGet, dictSet, vmapGet, vmapSet, vmapPop,
        pyTruthy, optTruthy, List.find?, merge_list_by_id, procOv, splitItems,
        collectDirs, apply_ordering_directives, applyDir, directive_priority],
   by decide⟩

/-- C2 (corrected): merging is idempotent in the override for every
STRUCTURALLY CLEAN override list.  `cleanOverride ol` requires: every
resource has a truthy scalar name, resource names are pairwise
distinct, dict keys are pairwise distinct with clean values, and every
nested list element is a dict with a truthy scalar `_id`, ids pairwise
distinct within the list, carrying no delete marker and no ordering
directive — recursively.  Then for EVERY base list the merge succeeds,
and re-applying the same override list to the merged result returns
the identical resource list: there is an `m1` with
`merge_resources bl ol = some m1` and `merge_resources m1 ol = some m1`. -/
theorem C2_merge_idempotent_for_clean_overrides (bl ol : List Obj)
    (h : cleanOverride ol = true) :
    ∃ m1, merge_resources bl ol = some m1 ∧ merge_resources m1 ol = some m1 := by
  have hall : ∀ r ∈ ol, cleanResource r = true := by
    have h1 := h
    simp only [cleanOverride, Bool.and_eq_true, List.all_eq_true] at h1
    intro r hr
    exact h1.1 r hr
  have habs : ∀ r ∈ ol,
      (∀ c : Obj, deep_merge (deep_merge c r) r = deep_merge c r)
        ∧ deep_merge r r = r := by
    intro r hr
    obtain ⟨v, hname, htr, hsc, hobj⟩ := cleanResource_parts (hall r hr)
    exact ⟨fun c => (cleanMergeMain (sizeOf r)).2.2.1 r le_rfl hobj c,
      (cleanMergeMain (sizeOf r)).1 r le_rfl hobj r (cleanObj_self_get hobj)⟩
  obtain ⟨hnd0, hcons0⟩ := mrIndexBase_inv bl [] (by simp [vmapNodup])
    (fun p hp => absurd hp (by simp))
  obtain ⟨acc2, hrun, hnd2, hcons2, hcov2, hpres2⟩ :=
    mrOv_run ol h (mrIndexBase bl []) hnd0 hcons0 habs
  refine ⟨acc2.map Prod.snd, ?_, ?_⟩
  · unfold merge_resources
    rw [hrun]
    rfl
  · unfold merge_resources
    have hidx : mrIndexBase (acc2.map Prod.snd) [] = acc2 := by
      rw [mrIndexBase_mapped acc2 [] hcons2 hnd2 (fun p _ => vmapGet_nil _)]
      exact List.nil_append acc2
    rw [hidx, mrOv_noop ol h acc2 hnd2 hcov2]
    rfl

/-- Witness for C2 at a concrete input: a clean one-resource override
merged into a one-resource base, twice. -/
theorem C2_witness :
    cleanOverride [[("name", Val.str "a"), ("retention", Val.int 30)]] = true
    ∧ ∃ m1, merge_resources [[("name", Val.str "a"), ("retention", Val.int 90)]]
          [[("name", Val.str "a"), ("retention", Val.int 30)]] = some m1
        ∧ merge_resources m1
            [[("name", Val.str "a"), ("retention", Val.int 30)]] = some m1 :=
  ⟨by decide, C2_merge_idempotent_for_clean_overrides
      [[("name", Val.str "a"), ("retention", Val.int 90)]]
      [[("name", Val.str "a"), ("retention", Val.int 30)]] (by decide)⟩

end CacCfg
